import Mathlib

/-!
Futures: a shallow embedding of `future.go`.

The Go package offers `Run`, which starts a computation on its own goroutine and
hands back a `Future`, the three methods `GetResult`, `IsCompleted` and `Wait`, and the
two combinators `WaitAll` and `WhenAll`.

The embedding is a small-step interleaving semantics.  One future is a record of the
struct fields, the holder of the mutex `cv.L`, the program counter of the spawned
goroutine and the program counters of `N` consumer goroutines.  Every statement of the
source that touches shared memory is one step.
-/

namespace Futures

/-! ## Values of the Go runtime -/

/-- A non-nil Go `error` value.  `custom id msg` is an error value made by the
computation (the `id` stands for its identity, so two errors with the same message are
still different values); `errorf msg` is the value built by `fmt.Errorf`. -/
inductive GoError where
  | custom (id : Nat) (msg : String)
  | errorf (msg : String)
  deriving DecidableEq, Repr

/-- The method `Error()` of an error value. -/
def GoError.Error : GoError → String
  | .custom _ msg => msg
  | .errorf msg => msg

/-- The Go interface type `error`: `none` is `nil`. -/
abbrev error := Option GoError

/-- Formatting of a value with the verb `%v`, as done by package `fmt`. -/
class FmtV (P : Type) where
  /-- The text `fmt` prints for the value under `%v`. -/
  sprint : P → String

instance : FmtV String := ⟨fun s => s⟩

/-- The call `fmt.Errorf("panic occured: %v", r)`. -/
def Errorf {P : Type} [FmtV P] (r : P) : GoError :=
  .errorf ("panic occured: " ++ FmtV.sprint r)

/-- The struct `Result[T]`. -/
structure Result (T : Type) where
  Value : T
  Err : error
  deriving DecidableEq, Repr

/-- What one call `cb()` of a computation `func() (T, error)` does: it returns a pair,
it panics, or it never returns.  A panic carries the value that `recover()` hands to a
deferred function: `some r` for a non-nil value `r`, `none` for nil.  Nil is what
`recover()` returns after `panic(nil)` when the main module declares `go 1.20` or earlier
or the program runs with `GODEBUG=panicnil=1`; under the semantics of Go 1.21 and later
`panic(nil)` arrives as a non-nil `*runtime.PanicNilError`, which is a `some r`. -/
inductive Outcome (T P : Type) where
  | returns (v : T) (e : error)
  | panics (r : Option P)
  | hangs
  deriving DecidableEq, Repr

/-- The builtin `recover()` called in a function deferred by the caller of `cb`: the
value of the panic in progress, which may be nil, and nil when `cb` is not panicking. -/
def recover {T P : Type} : Outcome T P → Option P
  | .panics r => r
  | _ => none

/-- The function `do`.  The named results start as the zero value of `T` and `nil`;
`result, err = cb()` assigns them only when `cb` returns; the deferred function then
overwrites `err` when `recover()` is not nil, and leaves the named results as they are
when it is nil.  The value is `none` when `cb` never returns, in which case `do` does not
return either. -/
def «do» {T P : Type} [Inhabited T] [FmtV P] (cb : Outcome T P) : Option (T × error) :=
  let result : T := default
  let err : error := none
  match cb with
  | .hangs => none
  | .returns v e =>
    let (result, err) := (v, e)
    match recover cb with
    | some r => some (result, some (Errorf r))
    | none => some (result, err)
  | .panics _ =>
    match recover cb with
    | some r => some (result, some (Errorf r))
    | none => some (result, err)

/-! ## One future and the goroutines that use it -/

/-- The struct `future[T]`.  The embedded `Result[T]` gives the fields `Value` and `Err`;
`result` is the pointer `*T` (`none` is `nil`, `some v` points to a variable holding `v`).
The field `cv` is kept in `State`: the holder of `cv.L` and the goroutines suspended in
`cv.Wait()`. -/
structure future (T : Type) extends Result T where
  result : Option T
  err : error
  completed : Bool
  deriving DecidableEq, Repr

/-- The three methods of the interface `Future[T]`. -/
inductive Method where
  | GetResult
  | IsCompleted
  | Wait
  deriving DecidableEq, Repr

/-- What a finished method call gave back to its caller. -/
inductive Ret (T : Type) where
  | getResult (v : T) (e : error)
  | isCompleted (b : Bool)
  | wait
  deriving DecidableEq, Repr

/-- Program counter of the goroutine started by `Run`, with the locals `result, err`
while they are still to be read. -/
inductive PPc (T : Type) where
  /-- The goroutine exists, `do(cb)` has not been called. -/
  | spawned
  /-- Inside `do(cb)`. -/
  | running
  /-- At `f.cv.L.Lock()`. -/
  | computed (result : T) (err : error)
  /-- At `f.result = &result`. -/
  | locked (result : T) (err : error)
  /-- At `f.err = err`. -/
  | wroteResult (err : error)
  /-- At `f.completed = true`. -/
  | wroteErr
  /-- At `f.cv.Broadcast()`. -/
  | wroteCompleted
  /-- At `f.cv.L.Unlock()`. -/
  | broadcasted
  /-- The goroutine has ended. -/
  | done
  deriving DecidableEq, Repr

/-- Program counter of a consumer goroutine.  The flag `g` of the `Wait` positions tells
whether `Wait` was called from `GetResult`. -/
inductive CPc (T : Type) where
  /-- Not inside a method of the future. -/
  | idle
  /-- In `IsCompleted`, at `f.cv.L.Lock()`. -/
  | icLock
  /-- In `IsCompleted`, at `result := f.completed`. -/
  | icRead
  /-- In `IsCompleted`, at `f.cv.L.Unlock()`, with the local `result`. -/
  | icUnlock (r : Bool)
  /-- In `Wait`, at `f.cv.L.Lock()`. -/
  | wLock (g : Bool)
  /-- In `Wait`, at the loop test `!f.completed`, holding the lock. -/
  | wTest (g : Bool)
  /-- In `Wait`, in the loop body at the call `f.cv.Wait()`, still holding the lock. -/
  | wBody (g : Bool)
  /-- In `Wait`, suspended inside `f.cv.Wait()`, the lock released. -/
  | wSleep (g : Bool)
  /-- In `Wait`, awakened inside `f.cv.Wait()`, about to lock `cv.L` again. -/
  | wWoken (g : Bool)
  /-- In `Wait`, at `f.cv.L.Unlock()`. -/
  | wUnlock (g : Bool)
  /-- In `GetResult`, at the read `*f.result`. -/
  | grDeref
  /-- In `GetResult`, at the read `f.err`, with the value read through the pointer. -/
  | grErr (v : T)
  /-- Stopped by a nil pointer dereference. -/
  | crashed
  deriving DecidableEq, Repr

/-- A consumer goroutine: where it is, what its finished calls returned, and how many
times it has executed `f.cv.Wait()`. -/
structure Consumer (T : Type) where
  pc : CPc T
  log : List (Ret T)
  waits : Nat

/-- Goroutine identifiers. -/
inductive Tid (N : Nat) where
  | producer
  | consumer (c : Fin N)
  deriving DecidableEq, Repr

/-- State of one future shared by the spawned goroutine and `N` consumers.  `runs`
counts the calls of `cb`. -/
structure State (T : Type) (N : Nat) where
  f : future T
  lock : Option (Tid N)
  producer : PPc T
  consumers : Fin N → Consumer T
  runs : Nat

/-- A scheduling decision: the spawned goroutine takes a step, consumer `c` starts a call
of method `m`, or consumer `c` takes a step inside its call. -/
inductive Label (N : Nat) where
  | producer
  | call (c : Fin N) (m : Method)
  | consumer (c : Fin N)
  deriving DecidableEq, Repr

/-- The function `Run` up to its `return f`: a zeroed struct, a fresh unlocked mutex, the
goroutine created, nobody using the future yet. -/
def Run {T : Type} [Inhabited T] (N : Nat) : State T N where
  f := { Value := default, Err := none, result := none, err := none, completed := false }
  lock := none
  producer := .spawned
  consumers := fun _ => { pc := .idle, log := [], waits := 0 }
  runs := 0

/-- Where a consumer stands right after calling method `m`. -/
def Method.entry {T : Type} : Method → CPc T
  | .GetResult => .wLock true
  | .IsCompleted => .icLock
  | .Wait => .wLock false

/-- Replace consumer `c`. -/
def State.setConsumer {T : Type} {N : Nat} (s : State T N) (c : Fin N) (k : Consumer T) :
    State T N :=
  { s with consumers := Function.update s.consumers c k }

/-- The call `f.cv.Broadcast()`: every goroutine suspended in `cv.Wait()` is awakened. -/
def wakeAll {T : Type} (k : Consumer T) : Consumer T :=
  match k.pc with
  | .wSleep g => { k with pc := .wWoken g }
  | _ => k

/-- One step of the goroutine started by `Run`, the body of the `go func`. -/
def stepProducer {T P : Type} [Inhabited T] [FmtV P] {N : Nat} (cb : Outcome T P)
    (s : State T N) : Option (State T N) :=
  match s.producer with
  | .spawned => some { s with producer := .running, runs := s.runs + 1 }
  | .running =>
    match «do» cb with
    | some (result, err) => some { s with producer := .computed result err }
    | none => none
  | .computed result err =>
    if s.lock = none then
      some { s with lock := some Tid.producer, producer := .locked result err }
    else none
  | .locked result err =>
    some { s with f := { s.f with result := some result }, producer := .wroteResult err }
  | .wroteResult err =>
    some { s with f := { s.f with err := err }, producer := .wroteErr }
  | .wroteErr =>
    some { s with f := { s.f with completed := true }, producer := .wroteCompleted }
  | .wroteCompleted =>
    some { s with consumers := fun c => wakeAll (s.consumers c), producer := .broadcasted }
  | .broadcasted => some { s with lock := none, producer := .done }
  | .done => none

/-- One step of consumer `c` inside `IsCompleted`, `Wait` or `GetResult`. -/
def stepConsumer {T : Type} {N : Nat} (s : State T N) (c : Fin N) : Option (State T N) :=
  let k := s.consumers c
  match k.pc with
  | .idle => none
  | .icLock =>
    if s.lock = none then
      some ({ s with lock := some (Tid.consumer c) }.setConsumer c { k with pc := .icRead })
    else none
  | .icRead => some (s.setConsumer c { k with pc := .icUnlock s.f.completed })
  | .icUnlock r =>
    some ({ s with lock := none }.setConsumer c
      { k with pc := .idle, log := k.log ++ [Ret.isCompleted r] })
  | .wLock g =>
    if s.lock = none then
      some ({ s with lock := some (Tid.consumer c) }.setConsumer c { k with pc := .wTest g })
    else none
  | .wTest g =>
    if !s.f.completed then some (s.setConsumer c { k with pc := .wBody g })
    else some (s.setConsumer c { k with pc := .wUnlock g })
  | .wBody g =>
    some ({ s with lock := none }.setConsumer c
      { k with pc := .wSleep g, waits := k.waits + 1 })
  | .wSleep _ => none
  | .wWoken g =>
    if s.lock = none then
      some ({ s with lock := some (Tid.consumer c) }.setConsumer c { k with pc := .wTest g })
    else none
  | .wUnlock g =>
    if g then some ({ s with lock := none }.setConsumer c { k with pc := .grDeref })
    else
      some ({ s with lock := none }.setConsumer c
        { k with pc := .idle, log := k.log ++ [Ret.wait] })
  | .grDeref =>
    match s.f.result with
    | some v => some (s.setConsumer c { k with pc := .grErr v })
    | none => some (s.setConsumer c { k with pc := .crashed })
  | .grErr v =>
    some (s.setConsumer c { k with pc := .idle, log := k.log ++ [Ret.getResult v s.f.err] })
  | .crashed => none

/-- One step of the whole system under a scheduling decision; `none` when the chosen
goroutine cannot move (it waits for the mutex, sleeps in `cv.Wait()`, has ended, or is
asked to start a call while inside one). -/
def step {T P : Type} [Inhabited T] [FmtV P] {N : Nat} (cb : Outcome T P) (s : State T N) :
    Label N → Option (State T N)
  | .producer => stepProducer cb s
  | .call c m =>
    match (s.consumers c).pc with
    | .idle => some (s.setConsumer c { s.consumers c with pc := m.entry })
    | _ => none
  | .consumer c => stepConsumer s c

/-- Run a schedule; `none` as soon as a chosen goroutine cannot move. -/
def run {T P : Type} [Inhabited T] [FmtV P] {N : Nat} (cb : Outcome T P) :
    State T N → List (Label N) → Option (State T N)
  | s, [] => some s
  | s, l :: ls => (step cb s l).bind fun s' => run cb s' ls

/-- States of the future returned by `Run(cb)` that some interleaving reaches. -/
inductive Reachable {T P : Type} [Inhabited T] [FmtV P] {N : Nat} (cb : Outcome T P) :
    State T N → Prop where
  | init : Reachable cb (Run N)
  | step {s s' : State T N} (l : Label N) :
    Reachable cb s → step cb s l = some s' → Reachable cb s'

/-! ## Schedules used as examples -/

/-- The eight steps of the spawned goroutine, from its start to its end. -/
def producerSteps (N : Nat) : List (Label N) := List.replicate 8 .producer

/-- Consumer `c` calls method `m` and takes `n` steps. -/
def callSteps {N : Nat} (c : Fin N) (m : Method) (n : Nat) : List (Label N) :=
  .call c m :: List.replicate n (.consumer c)

/-- A schedule in which consumer `c` calls `GetResult` first, finds the future pending and
goes to sleep in `cv.Wait()`; the spawned goroutine then runs to its end; the awakened
consumer finishes its call. -/
def sleeperSchedule {N : Nat} (c : Fin N) : List (Label N) :=
  callSteps c .GetResult 3 ++ producerSteps N ++ List.replicate 5 (.consumer c)

/-- The computation of `TestRun_Error`: it returns `""` and the error `customError`. -/
def testErrorCb : Outcome String String :=
  .returns "" (some (.custom 0 "test error"))

/-- The computation of `TestGetResult_Panic`. -/
def testPanicCb : Outcome String String := .panics (some "test panic")

/-- A computation that calls `panic(nil)` in a program where `recover()` then returns
nil (a main module that declares `go 1.20` or earlier, or `GODEBUG=panicnil=1`). -/
def nilPanicCb : Outcome String String := .panics none

/-- The computation of `TestRun_Success`. -/
def testSuccessCb : Outcome String String := .returns "test_result" none

/-! ## Several futures and the goroutine that combines them -/

/-- The futures of a program, `K` of them, each with one consumer slot: the goroutine
that calls `WaitAll` or `WhenAll`.  A `Future[T]` value is a pointer to one of them, an
index in `Fin K`. -/
abbrev World (T : Type) (K : Nat) := Fin K → State T 1

/-- A scheduling decision while the combining goroutine is inside a method: `none` lets
that goroutine take a step, `some j` lets the goroutine spawned for future `j` take one.
A goroutine that cannot move is passed over. -/
abbrev Sched (K : Nat) := List (Option (Fin K))

/-- The scheduling decision starts a call. -/
def Label.isCall {N : Nat} : Label N → Bool
  | .call _ _ => true
  | _ => false

/-- A scheduling decision on future `i` alone, seen from the world: the spawned goroutine
of `i`, or the combining goroutine. -/
def Label.toWorld {K : Nat} (i : Fin K) : Label 1 → Option (Fin K)
  | .producer => some i
  | _ => none

/-- The consumer is not inside a method. -/
def CPc.isIdle {T : Type} : CPc T → Bool
  | .idle => true
  | _ => false

/-- The rest of a method call on future `i` by the combining goroutine, under a schedule:
the returned value, the world and the unused schedule; `none` when the schedule ends
before the call returns. -/
def await {T P : Type} [Inhabited T] [FmtV P] {K : Nat} (cbs : Fin K → Outcome T P)
    (i : Fin K) : World T K → Sched K → Option (Ret T × World T K × Sched K)
  | _, [] => none
  | w, none :: rest =>
    match stepConsumer (w i) 0 with
    | none => await cbs i w rest
    | some s' =>
      if (s'.consumers 0).pc.isIdle then
        (s'.consumers 0).log.getLast?.map fun x => (x, Function.update w i s', rest)
      else await cbs i (Function.update w i s') rest
  | w, some j :: rest =>
    match stepProducer (cbs j) (w j) with
    | none => await cbs i w rest
    | some s' => await cbs i (Function.update w j s') rest

/-- A call of method `m` on future `i` by the combining goroutine. -/
def invoke {T P : Type} [Inhabited T] [FmtV P] {K : Nat} (cbs : Fin K → Outcome T P)
    (i : Fin K) (m : Method) (w : World T K) (sched : Sched K) :
    Option (Ret T × World T K × Sched K) :=
  match step (cbs i) (w i) (.call 0 m) with
  | none => none
  | some s' => await cbs i (Function.update w i s') sched

/-- The method `GetResult` as called by the combining goroutine. -/
def GetResult {T P : Type} [Inhabited T] [FmtV P] {K : Nat} (cbs : Fin K → Outcome T P)
    (i : Fin K) (w : World T K) (sched : Sched K) :
    Option ((T × error) × World T K × Sched K) :=
  match invoke cbs i .GetResult w sched with
  | some (.getResult v e, w', rest) => some ((v, e), w', rest)
  | _ => none

/-- The method `Wait` as called by the combining goroutine. -/
def Wait {T P : Type} [Inhabited T] [FmtV P] {K : Nat} (cbs : Fin K → Outcome T P)
    (i : Fin K) (w : World T K) (sched : Sched K) : Option (World T K × Sched K) :=
  match invoke cbs i .Wait w sched with
  | some (.wait, w', rest) => some (w', rest)
  | _ => none

/-- The method `IsCompleted` as called by the combining goroutine. -/
def IsCompleted {T P : Type} [Inhabited T] [FmtV P] {K : Nat} (cbs : Fin K → Outcome T P)
    (i : Fin K) (w : World T K) (sched : Sched K) : Option (Bool × World T K × Sched K) :=
  match invoke cbs i .IsCompleted w sched with
  | some (.isCompleted b, w', rest) => some (b, w', rest)
  | _ => none

/-- The function `WaitAll`: for every `i` in `range futures`, in order, the call
`futures[i].Wait()`. -/
def WaitAll {T P : Type} [Inhabited T] [FmtV P] {K : Nat} (cbs : Fin K → Outcome T P) :
    List (Fin K) → World T K → Sched K → Option (World T K × Sched K)
  | [], w, sched => some (w, sched)
  | f :: futures, w, sched =>
    match Wait cbs f w sched with
    | none => none
    | some (w', rest) => WaitAll cbs futures w' rest

/-- The loop of `WhenAll` from index `i` on, over the futures not yet visited:
`v, err := futures[i].GetResult()`, then `result[i]` becomes the `Result[T]` with `Value: v`
and `Err: err`. -/
def whenAllLoop {T P : Type} [Inhabited T] [FmtV P] {K : Nat} (cbs : Fin K → Outcome T P) :
    List (Fin K) → Nat → List (Result T) → World T K → Sched K →
      Option (List (Result T) × World T K × Sched K)
  | [], _, result, w, sched => some (result, w, sched)
  | f :: futures, i, result, w, sched =>
    match GetResult cbs f w sched with
    | none => none
    | some ((v, err), w', rest) =>
      whenAllLoop cbs futures (i + 1) (result.set i { Value := v, Err := err }) w' rest

/-- The function `WhenAll`: `result := make([]Result[T], len(futures))`, the loop, and
`return result`. -/
def WhenAll {T P : Type} [Inhabited T] [FmtV P] {K : Nat} (cbs : Fin K → Outcome T P)
    (futures : List (Fin K)) (w : World T K) (sched : Sched K) :
    Option (List (Result T) × World T K × Sched K) :=
  let result : List (Result T) :=
    List.replicate futures.length { Value := default, Err := none }
  whenAllLoop cbs futures 0 result w sched

/-- The world right after `K` calls of `Run`. -/
def RunAll {T : Type} [Inhabited T] (K : Nat) : World T K := fun _ => Run 1

/-- The computations of `TestWhenAll`, three of them: future `i` returns `i`. -/
def testWhenAllCbs : Fin 3 → Outcome Nat String := fun i => .returns i.val none

/-- A schedule for `TestWhenAll` in which the futures complete in the order 2, 0, 1 while
the combining goroutine sleeps on future 0 first. -/
def testWhenAllSched : Sched 3 :=
  List.replicate 3 none ++ List.replicate 8 (some 2) ++ List.replicate 8 (some 0) ++
    List.replicate 5 none ++ List.replicate 3 none ++ List.replicate 8 (some 1) ++
    List.replicate 5 none ++ List.replicate 5 none

/-- Three computations: a success, a panic, and a failure that still returns a value. -/
def mixedCbs : Fin 3 → Outcome Nat String := fun i =>
  match i.val with
  | 0 => .returns 10 none
  | 1 => .panics (some "test panic")
  | _ => .returns 12 (some (.custom 0 "test error"))

/-- What `WhenAll(f0, f1, f2)` gives on the futures of `mixedCbs` right after their
`Run`, under `testWhenAllSched` (the empty result when the schedule is too short). -/
def whenAllDemo : List (Result Nat) × World Nat 3 × Sched 3 :=
  (WhenAll mixedCbs [0, 1, 2] (RunAll 3) testWhenAllSched).getD ([], RunAll 3, [])

/-- A schedule for `TestWaitAll` with three futures: the caller sleeps on future 0 while
future 1 and then future 0 complete, finds future 1 completed, and sleeps on future 2. -/
def testWaitAllSched : Sched 3 :=
  List.replicate 3 none ++ List.replicate 8 (some 1) ++ List.replicate 8 (some 0) ++
    List.replicate 3 none ++ List.replicate 3 none ++ List.replicate 3 none ++
    List.replicate 8 (some 2) ++ List.replicate 3 none

/-- What `WaitAll(f0, f1, f2)` gives on the futures of `mixedCbs` right after their `Run`,
under `testWaitAllSched`. -/
def waitAllDemo : World Nat 3 × Sched 3 :=
  (WaitAll mixedCbs [0, 1, 2] (RunAll 3) testWaitAllSched).getD (RunAll 3, [])

/-! ## The invariant of one future -/

/-- The spawned goroutine is between `Lock()` and `Unlock()`. -/
def PPc.critical {T : Type} : PPc T → Bool
  | .locked _ _ | .wroteResult _ | .wroteErr | .wroteCompleted | .broadcasted => true
  | _ => false

/-- The spawned goroutine has not yet called `Broadcast()`. -/
def PPc.beforeBroadcast {T : Type} : PPc T → Bool
  | .broadcasted | .done => false
  | _ => true

/-- The computation has returned or panicked: `do(cb)` is over. -/
def PPc.finished {T : Type} : PPc T → Bool
  | .spawned | .running => false
  | _ => true

/-- The consumer is between `Lock()` and `Unlock()` (or the unlock inside `cv.Wait()`). -/
def CPc.critical {T : Type} : CPc T → Bool
  | .icRead | .icUnlock _ | .wTest _ | .wBody _ | .wUnlock _ => true
  | _ => false

/-- What the struct fields hold at each position of the spawned goroutine, and who holds
the mutex. -/
def ProdInv {T P : Type} [Inhabited T] [FmtV P] {N : Nat} (cb : Outcome T P)
    (s : State T N) : Prop :=
  (s.lock = some Tid.producer ↔ s.producer.critical = true) ∧
  match s.producer with
  | .spawned =>
    s.f.result = none ∧ s.f.err = none ∧ s.f.completed = false ∧ s.runs = 0
  | .running =>
    s.f.result = none ∧ s.f.err = none ∧ s.f.completed = false ∧ s.runs = 1
  | .computed r e =>
    «do» cb = some (r, e) ∧
      s.f.result = none ∧ s.f.err = none ∧ s.f.completed = false ∧ s.runs = 1
  | .locked r e =>
    «do» cb = some (r, e) ∧
      s.f.result = none ∧ s.f.err = none ∧ s.f.completed = false ∧ s.runs = 1
  | .wroteResult e =>
    ∃ r, «do» cb = some (r, e) ∧
      s.f.result = some r ∧ s.f.err = none ∧ s.f.completed = false ∧ s.runs = 1
  | .wroteErr =>
    ∃ r e, «do» cb = some (r, e) ∧
      s.f.result = some r ∧ s.f.err = e ∧ s.f.completed = false ∧ s.runs = 1
  | .wroteCompleted | .broadcasted | .done =>
    ∃ r e, «do» cb = some (r, e) ∧
      s.f.result = some r ∧ s.f.err = e ∧ s.f.completed = true ∧ s.runs = 1

/-- A returned value agrees with the struct: a `GetResult` or `Wait` that returned saw
the future completed, `GetResult` gave the stored pair, and `IsCompleted` said `true`
only of a completed future. -/
def RetOk {T : Type} (f : future T) : Ret T → Prop
  | .getResult v e => f.completed = true ∧ f.result = some v ∧ f.err = e
  | .isCompleted b => b = true → f.completed = true
  | .wait => f.completed = true

/-- What holds of consumer `c` at each of its positions. -/
def ConsInv {T : Type} {N : Nat} (s : State T N) (c : Fin N) (k : Consumer T) : Prop :=
  (s.lock = some (Tid.consumer c) ↔ k.pc.critical = true) ∧
  (match k.pc with
    | .icUnlock r => r = true → s.f.completed = true
    | .wBody _ => s.f.completed = false
    | .wSleep _ => s.producer.beforeBroadcast = true
    | .wWoken _ => s.f.completed = true
    | .wUnlock _ => s.f.completed = true
    | .grDeref => s.f.completed = true
    | .grErr v => s.f.completed = true ∧ s.f.result = some v
    | .crashed => False
    | _ => True) ∧
  ∀ r ∈ k.log, RetOk s.f r

/-- The invariant of the system of one future. -/
structure Inv {T P : Type} [Inhabited T] [FmtV P] {N : Nat} (cb : Outcome T P)
    (s : State T N) : Prop where
  prod : ProdInv cb s
  cons : ∀ c, ConsInv s c (s.consumers c)

/-! ## Progress measure -/

/-- Steps the spawned goroutine still has to take. -/
def PPc.rank {T : Type} : PPc T → Nat
  | .spawned => 8
  | .running => 7
  | .computed _ _ => 6
  | .locked _ _ => 5
  | .wroteResult _ => 4
  | .wroteErr => 3
  | .wroteCompleted => 2
  | .broadcasted => 1
  | .done => 0

/-- Steps left from `f.cv.L.Unlock()` of `Wait` to the return of the method called. -/
def unlockRank (g : Bool) : Nat := if g then 3 else 1

/-- An upper bound on the steps (its own, and the wake-up by `Broadcast`) a consumer
still needs to leave its call, given the flag `completed`. -/
def CPc.rank {T : Type} (completed : Bool) : CPc T → Nat
  | .idle => 0
  | .icLock => 3
  | .icRead => 2
  | .icUnlock _ => 1
  | .wLock g => 2 + unlockRank g
  | .wTest g => if completed then 1 + unlockRank g else 6 + unlockRank g
  | .wBody g => 5 + unlockRank g
  | .wSleep g => 4 + unlockRank g
  | .wWoken g => 2 + unlockRank g
  | .wUnlock g => unlockRank g
  | .grDeref => 2
  | .grErr _ => 1
  | .crashed => 0

/-- The progress measure of a state. -/
def State.mu {T : Type} {N : Nat} (s : State T N) : Nat :=
  s.producer.rank + Finset.univ.sum fun c => (s.consumers c).pc.rank s.f.completed

/-- The method a consumer is inside of. -/
def CPc.method {T : Type} : CPc T → Option Method
  | .idle => none
  | .icLock | .icRead | .icUnlock _ => some .IsCompleted
  | .wLock g | .wTest g | .wBody g | .wSleep g | .wWoken g | .wUnlock g =>
    some (if g then .GetResult else .Wait)
  | .grDeref | .grErr _ | .crashed => some .GetResult

/-- The method a returned value comes from. -/
def Ret.method {T : Type} : Ret T → Method
  | .getResult _ _ => .GetResult
  | .isCompleted _ => .IsCompleted
  | .wait => .Wait

/-- The state a schedule leads to from the future returned by `Run(cb)`; a schedule that
asks a goroutine to move when it cannot leaves the future as `Run` returned it. -/
def exec {T P : Type} [Inhabited T] [FmtV P] {N : Nat} (cb : Outcome T P)
    (sched : List (Label N)) : State T N :=
  (run cb (Run N) sched).getD (Run N)

/-- The state a schedule leads to from `s`, or `s` itself when the schedule asks a
goroutine to move that cannot. -/
def execFrom {T P : Type} [Inhabited T] [FmtV P] {N : Nat} (cb : Outcome T P)
    (s : State T N) (sched : List (Label N)) : State T N :=
  (run cb s sched).getD s

/-- A computation that fails and still returns a value: `return "partial", customError`. -/
def partialFailureCb : Outcome String String :=
  .returns "partial" (some (.custom 0 "test error"))

/-- Three consumers call `GetResult` on a pending future and fall asleep in `cv.Wait()`
one after the other; the spawned goroutine runs to its end and wakes them; each then
finishes its call. -/
def threeSleepers : List (Label 3) :=
  callSteps 0 .GetResult 3 ++ callSteps 1 .GetResult 3 ++ callSteps 2 .GetResult 3 ++
    producerSteps 3 ++ List.replicate 5 (.consumer 2) ++ List.replicate 5 (.consumer 0) ++
    List.replicate 5 (.consumer 1)

/-- A completed future with two consumers, the first of which has already got the
result of `TestRun_Success`. -/
def completedStart : State String 2 :=
  exec testSuccessCb (producerSteps 2 ++ callSteps 0 .GetResult 5)

/-- After completion: the second consumer polls and fetches the result, the first
fetches it again. -/
def afterCompletion : List (Label 2) :=
  callSteps 1 .IsCompleted 3 ++ callSteps 1 .GetResult 5 ++ callSteps 0 .GetResult 5

/-- The schedule `calls` repeated `n` times. -/
def repeatCalls {N : Nat} (calls : List (Label N)) : Nat → List (Label N)
  | 0 => []
  | n + 1 => calls ++ repeatCalls calls n

/-- How a consumer changes over one step of the system: it stays in the same call (or
stays idle, or enters a call) with its log untouched, or it returns from its call and
logs one value of the method it was in. -/
def Consumer.Next {T : Type} (k k' : Consumer T) : Prop :=
  (k'.log = k.log ∧ (k'.pc.method = k.pc.method ∨ k.pc = .idle) ∧ k'.pc ≠ .idle ∨
    k' = k) ∨
  (k'.pc = .idle ∧ ∃ x, k'.log = k.log ++ [x] ∧ k.pc.method = some x.method)

/-! ## Preservation of the invariant -/

@[simp] theorem setConsumer_f {T : Type} {N : Nat} (s : State T N) (c : Fin N)
    (k : Consumer T) : (s.setConsumer c k).f = s.f := rfl

@[simp] theorem setConsumer_lock {T : Type} {N : Nat} (s : State T N) (c : Fin N)
    (k : Consumer T) : (s.setConsumer c k).lock = s.lock := rfl

@[simp] theorem setConsumer_producer {T : Type} {N : Nat} (s : State T N) (c : Fin N)
    (k : Consumer T) : (s.setConsumer c k).producer = s.producer := rfl

@[simp] theorem setConsumer_runs {T : Type} {N : Nat} (s : State T N) (c : Fin N)
    (k : Consumer T) : (s.setConsumer c k).runs = s.runs := rfl

@[simp] theorem setConsumer_same {T : Type} {N : Nat} (s : State T N) (c : Fin N)
    (k : Consumer T) : (s.setConsumer c k).consumers c = k := by
  simp [State.setConsumer]

theorem setConsumer_other {T : Type} {N : Nat} (s : State T N) {c d : Fin N}
    (k : Consumer T) (h : d ≠ c) : (s.setConsumer c k).consumers d = s.consumers d := by
  simp [State.setConsumer, h]

/-- A returned value stays in agreement with the struct as long as a completed struct is
left alone. -/
theorem RetOk.stable {T : Type} {f g : future T} {r : Ret T} (h : RetOk f r)
    (hfg : f.completed = true → g = f) : RetOk g r := by
  cases hc : f.completed
  · cases r <;> simp_all [RetOk]
  · rw [hfg hc]; exact h

theorem inv_Run {T P : Type} [Inhabited T] [FmtV P] {N : Nat} (cb : Outcome T P) :
    Inv cb (Run N : State T N) := by
  refine ⟨?_, fun c => ?_⟩
  · simp [ProdInv, Run, PPc.critical]
  · simp [ConsInv, Run, CPc.critical]

/-- The invariant of a consumer only looks at the struct, the mutex and the position of
the spawned goroutine; it survives a change of those that leaves a completed struct
alone. -/
theorem ConsInv.transfer {T : Type} {N : Nat} {s s' : State T N} {c : Fin N}
    {k : Consumer T} (h : ConsInv s c k)
    (hlock : (s'.lock = some (Tid.consumer c) ↔ s.lock = some (Tid.consumer c)))
    (hf : s.f.completed = true → s'.f = s.f)
    (hbody : k.pc.critical = true → s'.f.completed = s.f.completed)
    (hbb : s.producer.beforeBroadcast = true → (∃ g, k.pc = .wSleep g) →
      s'.producer.beforeBroadcast = true) : ConsInv s' c k := by
  obtain ⟨h1, h2, h3⟩ := h
  refine ⟨hlock.trans h1, ?_, fun r hr => (h3 r hr).stable hf⟩
  cases hk : k.pc <;> simp only [hk] at h2 ⊢ <;> simp only [hk, CPc.critical] at hbody
  case icUnlock r => intro hr; rw [hf (h2 hr)]; exact h2 hr
  case wBody g => rw [hbody trivial]; exact h2
  case wSleep g => exact hbb h2 ⟨g, hk⟩
  case wWoken g => rw [hf h2]; exact h2
  case wUnlock g => rw [hf h2]; exact h2
  case grDeref => rw [hf h2]; exact h2
  case grErr v => rw [hf h2.1]; exact h2

theorem inv_stepProducer {T P : Type} [Inhabited T] [FmtV P] {N : Nat} {cb : Outcome T P}
    {s s' : State T N} (h : Inv cb s) (hs : stepProducer cb s = some s') : Inv cb s' := by
  obtain ⟨hp, hc⟩ := h
  unfold stepProducer at hs
  cases hpc : s.producer <;> simp only [hpc] at hs
  case spawned =>
    cases hs
    simp only [ProdInv, hpc, PPc.critical] at hp
    refine ⟨by simpa [ProdInv, PPc.critical] using hp, fun c => (hc c).transfer ?_ ?_ ?_ ?_⟩ <;>
      simp [PPc.beforeBroadcast]
  case running =>
    split at hs
    · rename_i result err hdo
      cases hs
      simp only [ProdInv, hpc, PPc.critical] at hp
      refine ⟨by simpa [ProdInv, PPc.critical, hdo] using hp,
        fun c => (hc c).transfer ?_ ?_ ?_ ?_⟩ <;> simp [PPc.beforeBroadcast]
    · cases hs
  case computed result err =>
    split at hs
    · rename_i hfree
      cases hs
      simp only [ProdInv, hpc, PPc.critical] at hp
      refine ⟨by simpa [ProdInv, PPc.critical] using hp.2,
        fun c => (hc c).transfer ?_ ?_ ?_ ?_⟩ <;> simp [PPc.beforeBroadcast, hfree]
    · cases hs
  case locked result err =>
    cases hs
    simp only [ProdInv, hpc, PPc.critical] at hp
    obtain ⟨hl, hdo, h1, h2, h3, h4⟩ := hp
    simp only [true_iff, iff_true] at hl
    refine ⟨by simp [ProdInv, PPc.critical, hl, hdo, h2, h3, h4],
      fun c => (hc c).transfer ?_ ?_ ?_ ?_⟩ <;> simp [PPc.beforeBroadcast, h3]
  case wroteResult err =>
    cases hs
    simp only [ProdInv, hpc, PPc.critical] at hp
    obtain ⟨hl, r, hdo, h1, h2, h3, h4⟩ := hp
    simp only [true_iff, iff_true] at hl
    refine ⟨by simp [ProdInv, PPc.critical, hl, hdo, h1, h3, h4],
      fun c => (hc c).transfer ?_ ?_ ?_ ?_⟩ <;> simp [PPc.beforeBroadcast, h3]
  case wroteErr =>
    cases hs
    simp only [ProdInv, hpc, PPc.critical] at hp
    obtain ⟨hl, r, e, hdo, h1, h2, h3, h4⟩ := hp
    simp only [true_iff, iff_true] at hl
    refine ⟨by simp [ProdInv, PPc.critical, hl, hdo, h1, h2, h4],
      fun c => (hc c).transfer ?_ ?_ ?_ ?_⟩
    · simp
    · simp [h3]
    · intro hk
      have := (hc c).1.2 hk
      rw [hl] at this
      cases this
    · simp [PPc.beforeBroadcast]
  case wroteCompleted =>
    cases hs
    simp only [ProdInv, hpc, PPc.critical] at hp
    obtain ⟨hl, r, e, hdo, h1, h2, h3, h4⟩ := hp
    simp only [true_iff, iff_true] at hl
    refine ⟨by simp [ProdInv, PPc.critical, hl, hdo, h1, h2, h3, h4], fun c => ?_⟩
    show ConsInv _ c (wakeAll (s.consumers c))
    by_cases hk : ∃ g, (s.consumers c).pc = .wSleep g
    · obtain ⟨g, hk⟩ := hk
      obtain ⟨c1, -, c3⟩ := hc c
      refine ⟨?_, ?_, ?_⟩
      · simpa [wakeAll, hk, CPc.critical] using c1
      · simpa [wakeAll, hk] using h3
      · simpa [wakeAll, hk] using c3
    · have hw : wakeAll (s.consumers c) = s.consumers c := by
        unfold wakeAll
        split
        · rename_i g hg
          exact absurd ⟨g, hg⟩ hk
        · rfl
      rw [hw]
      refine (hc c).transfer ?_ ?_ ?_ ?_
      · simp
      · simp
      · simp
      · intro _ hg
        exact absurd hg hk
  case broadcasted =>
    cases hs
    simp only [ProdInv, hpc, PPc.critical] at hp
    obtain ⟨hl, r, e, hdo, h1, h2, h3, h4⟩ := hp
    simp only [true_iff, iff_true] at hl
    refine ⟨by simp [ProdInv, PPc.critical, hdo, h1, h2, h3, h4],
      fun c => (hc c).transfer ?_ ?_ ?_ ?_⟩
    · simp [hl]
    · simp
    · simp
    · intro hb
      simp [hpc, PPc.beforeBroadcast] at hb
  case done => cases hs

/-- A step of consumer `c` changes only the mutex and the consumer itself; the invariant
then follows from the invariant of `c` alone. -/
theorem inv_of_consumer_step {T P : Type} [Inhabited T] [FmtV P] {N : Nat}
    {cb : Outcome T P} {s : State T N} (h : Inv cb s) (c : Fin N) (s' : State T N)
    (hf : s'.f = s.f) (hp : s'.producer = s.producer) (hr : s'.runs = s.runs)
    (hcons : ∀ d, d ≠ c → s'.consumers d = s.consumers d)
    (hL : s'.lock = s.lock ∨ (s.lock = none ∧ s'.lock = some (Tid.consumer c)) ∨
      (s.lock = some (Tid.consumer c) ∧ s'.lock = none))
    (hk : ConsInv s' c (s'.consumers c)) : Inv cb s' := by
  refine ⟨?_, fun d => ?_⟩
  · unfold ProdInv
    rw [hf, hp, hr]
    refine ⟨Iff.trans ?_ h.prod.1, h.prod.2⟩
    rcases hL with hL | ⟨h1, h2⟩ | ⟨h1, h2⟩
    · rw [hL]
    · simp [h1, h2]
    · simp [h1, h2]
  · by_cases hd : d = c
    · subst hd; exact hk
    · rw [hcons d hd]
      refine (h.cons d).transfer ?_ ?_ ?_ ?_
      · rcases hL with hL | ⟨h1, h2⟩ | ⟨h1, h2⟩
        · rw [hL]
        · have : c ≠ d := fun e => hd e.symm
          simp [h1, h2, this]
        · have : c ≠ d := fun e => hd e.symm
          simp [h1, h2, this]
      · intro _; exact hf
      · intro _; rw [hf]
      · intro hb _; rw [hp]; exact hb

theorem inv_call {T P : Type} [Inhabited T] [FmtV P] {N : Nat} {cb : Outcome T P}
    {s s' : State T N} {c : Fin N} {m : Method} (h : Inv cb s)
    (hs : step cb s (.call c m) = some s') : Inv cb s' := by
  simp only [step] at hs
  split at hs
  · rename_i hidle
    cases hs
    refine inv_of_consumer_step h c _ rfl rfl rfl (fun d hd => setConsumer_other _ _ hd)
      (Or.inl rfl) ?_
    obtain ⟨c1, -, c3⟩ := h.cons c
    rw [setConsumer_same]
    refine ⟨?_, ?_, c3⟩
    · rw [setConsumer_lock, c1, hidle]
      cases m <;> simp [Method.entry, CPc.critical]
    · cases m <;> simp [Method.entry]
  · cases hs

/-- In a state that satisfies the invariant, a completed struct holds the pair `do(cb)`
returned, and the spawned goroutine is past `f.completed = true`. -/
theorem ProdInv.of_completed {T P : Type} [Inhabited T] [FmtV P] {N : Nat}
    {cb : Outcome T P} {s : State T N} (h : ProdInv cb s) (hc : s.f.completed = true) :
    ∃ r e, «do» cb = some (r, e) ∧ s.f.result = some r ∧ s.f.err = e ∧ s.runs = 1 ∧
      (s.producer = .wroteCompleted ∨ s.producer = .broadcasted ∨ s.producer = .done) := by
  obtain ⟨-, h2⟩ := h
  cases hpc : s.producer <;> simp only [hpc] at h2
  case wroteCompleted =>
    obtain ⟨r, e, a, b, c, -, d⟩ := h2
    exact ⟨r, e, a, b, c, d, by simp⟩
  case broadcasted =>
    obtain ⟨r, e, a, b, c, -, d⟩ := h2
    exact ⟨r, e, a, b, c, d, by simp⟩
  case done =>
    obtain ⟨r, e, a, b, c, -, d⟩ := h2
    exact ⟨r, e, a, b, c, d, by simp⟩
  all_goals simp_all

theorem inv_stepConsumer {T P : Type} [Inhabited T] [FmtV P] {N : Nat} {cb : Outcome T P}
    {s s' : State T N} {c : Fin N} (h : Inv cb s) (hs : stepConsumer s c = some s') :
    Inv cb s' := by
  have hcc := h.cons c
  obtain ⟨c1, c2, c3⟩ := hcc
  unfold stepConsumer at hs
  simp only at hs
  cases hk : (s.consumers c).pc <;> simp only [hk] at hs c1 c2
  case idle => cases hs
  case icLock =>
    split at hs
    · rename_i hfree
      cases hs
      refine inv_of_consumer_step h c _ rfl rfl rfl (fun d hd => setConsumer_other _ _ hd)
        (Or.inr (Or.inl ⟨hfree, rfl⟩)) ?_
      rw [setConsumer_same]
      exact ⟨by simp [CPc.critical], trivial, c3⟩
    · cases hs
  case icRead =>
    cases hs
    refine inv_of_consumer_step h c _ rfl rfl rfl (fun d hd => setConsumer_other _ _ hd)
      (Or.inl rfl) ?_
    rw [setConsumer_same]
    exact ⟨by simpa [CPc.critical] using c1, by simp, c3⟩
  case icUnlock r =>
    cases hs
    have hl : s.lock = some (Tid.consumer c) := by simpa [CPc.critical] using c1
    refine inv_of_consumer_step h c _ rfl rfl rfl (fun d hd => setConsumer_other _ _ hd)
      (Or.inr (Or.inr ⟨hl, rfl⟩)) ?_
    rw [setConsumer_same]
    refine ⟨by simp [CPc.critical], trivial, fun x hx => ?_⟩
    rcases List.mem_append.1 hx with hx | hx
    · exact c3 x hx
    · rw [List.mem_singleton.1 hx]; exact c2
  case wLock g =>
    split at hs
    · rename_i hfree
      cases hs
      refine inv_of_consumer_step h c _ rfl rfl rfl (fun d hd => setConsumer_other _ _ hd)
        (Or.inr (Or.inl ⟨hfree, rfl⟩)) ?_
      rw [setConsumer_same]
      exact ⟨by simp [CPc.critical], trivial, c3⟩
    · cases hs
  case wTest g =>
    split at hs
    · rename_i hnc
      cases hs
      refine inv_of_consumer_step h c _ rfl rfl rfl (fun d hd => setConsumer_other _ _ hd)
        (Or.inl rfl) ?_
      rw [setConsumer_same]
      exact ⟨by simpa [CPc.critical] using c1, by simpa using hnc, c3⟩
    · rename_i hnc
      cases hs
      refine inv_of_consumer_step h c _ rfl rfl rfl (fun d hd => setConsumer_other _ _ hd)
        (Or.inl rfl) ?_
      rw [setConsumer_same]
      exact ⟨by simpa [CPc.critical] using c1, by simpa using hnc, c3⟩
  case wBody g =>
    cases hs
    have hl : s.lock = some (Tid.consumer c) := by simpa [CPc.critical] using c1
    refine inv_of_consumer_step h c _ rfl rfl rfl (fun d hd => setConsumer_other _ _ hd)
      (Or.inr (Or.inr ⟨hl, rfl⟩)) ?_
    rw [setConsumer_same]
    refine ⟨by simp [CPc.critical], ?_, c3⟩
    show s.producer.beforeBroadcast = true
    obtain ⟨p1, p2⟩ := h.prod
    cases hpc : s.producer <;> simp only [hpc] at p2 <;> simp_all [PPc.beforeBroadcast]
  case wSleep g => cases hs
  case wWoken g =>
    split at hs
    · rename_i hfree
      cases hs
      refine inv_of_consumer_step h c _ rfl rfl rfl (fun d hd => setConsumer_other _ _ hd)
        (Or.inr (Or.inl ⟨hfree, rfl⟩)) ?_
      rw [setConsumer_same]
      exact ⟨by simp [CPc.critical], trivial, c3⟩
    · cases hs
  case wUnlock g =>
    have hl : s.lock = some (Tid.consumer c) := by simpa [CPc.critical] using c1
    split at hs
    · cases hs
      refine inv_of_consumer_step h c _ rfl rfl rfl (fun d hd => setConsumer_other _ _ hd)
        (Or.inr (Or.inr ⟨hl, rfl⟩)) ?_
      rw [setConsumer_same]
      exact ⟨by simp [CPc.critical], c2, c3⟩
    · cases hs
      refine inv_of_consumer_step h c _ rfl rfl rfl (fun d hd => setConsumer_other _ _ hd)
        (Or.inr (Or.inr ⟨hl, rfl⟩)) ?_
      rw [setConsumer_same]
      refine ⟨by simp [CPc.critical], trivial, fun x hx => ?_⟩
      rcases List.mem_append.1 hx with hx | hx
      · exact c3 x hx
      · rw [List.mem_singleton.1 hx]; exact c2
  case grDeref =>
    obtain ⟨r, e, -, hres, -⟩ := h.prod.of_completed c2
    rw [hres] at hs
    cases hs
    refine inv_of_consumer_step h c _ rfl rfl rfl (fun d hd => setConsumer_other _ _ hd)
      (Or.inl rfl) ?_
    rw [setConsumer_same]
    exact ⟨by simpa [CPc.critical] using c1, ⟨c2, hres⟩, c3⟩
  case grErr v =>
    cases hs
    refine inv_of_consumer_step h c _ rfl rfl rfl (fun d hd => setConsumer_other _ _ hd)
      (Or.inl rfl) ?_
    rw [setConsumer_same]
    refine ⟨by simpa [CPc.critical] using c1, trivial, fun x hx => ?_⟩
    rcases List.mem_append.1 hx with hx | hx
    · exact c3 x hx
    · rw [List.mem_singleton.1 hx]; exact ⟨c2.1, c2.2, rfl⟩

/-- Every step keeps the invariant. -/
theorem inv_step {T P : Type} [Inhabited T] [FmtV P] {N : Nat} {cb : Outcome T P}
    {s s' : State T N} {l : Label N} (h : Inv cb s) (hs : step cb s l = some s') :
    Inv cb s' := by
  cases l with
  | producer => exact inv_stepProducer h hs
  | call c m => exact inv_call h hs
  | consumer c => exact inv_stepConsumer h hs

/-- Every reachable state satisfies the invariant. -/
theorem inv_of_reachable {T P : Type} [Inhabited T] [FmtV P] {N : Nat} {cb : Outcome T P}
    {s : State T N} (h : Reachable cb s) : Inv cb s := by
  induction h with
  | init => exact inv_Run cb
  | step l _ hs ih => exact inv_step ih hs

/-! ## Schedules -/

theorem run_append {T P : Type} [Inhabited T] [FmtV P] {N : Nat} (cb : Outcome T P)
    (s : State T N) (a b : List (Label N)) :
    run cb s (a ++ b) = (run cb s a).bind fun s' => run cb s' b := by
  induction a generalizing s with
  | nil => simp [run]
  | cons l ls ih =>
    simp only [List.cons_append, run]
    cases step cb s l with
    | none => simp
    | some s1 => simpa using ih s1

theorem reachable_run {T P : Type} [Inhabited T] [FmtV P] {N : Nat} {cb : Outcome T P}
    {s s' : State T N} (h : Reachable cb s) {sched : List (Label N)}
    (hr : run cb s sched = some s') : Reachable cb s' := by
  induction sched generalizing s with
  | nil => simp [run] at hr; rw [← hr]; exact h
  | cons l ls ih =>
    simp only [run] at hr
    cases hstep : step cb s l with
    | none => simp [hstep] at hr
    | some s1 =>
      rw [hstep] at hr
      exact ih (Reachable.step l h hstep) hr

theorem reachable_exec {T P : Type} [Inhabited T] [FmtV P] {N : Nat} (cb : Outcome T P)
    (sched : List (Label N)) : Reachable cb (exec cb sched : State T N) := by
  unfold exec
  cases hr : run cb (Run N) sched with
  | none => exact Reachable.init
  | some s => exact reachable_run Reachable.init hr

theorem inv_run {T P : Type} [Inhabited T] [FmtV P] {N : Nat} {cb : Outcome T P}
    {s s' : State T N} (h : Inv cb s) {sched : List (Label N)}
    (hr : run cb s sched = some s') : Inv cb s' := by
  induction sched generalizing s with
  | nil => simp [run] at hr; rw [← hr]; exact h
  | cons l ls ih =>
    simp only [run] at hr
    cases hstep : step cb s l with
    | none => simp [hstep] at hr
    | some s1 =>
      rw [hstep] at hr
      exact ih (inv_step h hstep) hr

/-! ## What one step does to one consumer -/

theorem stepProducer_consumers {T P : Type} [Inhabited T] [FmtV P] {N : Nat}
    {cb : Outcome T P} {s s' : State T N} (hs : stepProducer cb s = some s') (c : Fin N) :
    s'.consumers c = s.consumers c ∨
      ∃ g, (s.consumers c).pc = .wSleep g ∧
        s'.consumers c = { s.consumers c with pc := .wWoken g } := by
  unfold stepProducer at hs
  cases hpc : s.producer <;> simp only [hpc] at hs
  case running =>
    split at hs
    · cases hs; exact Or.inl rfl
    · cases hs
  case computed =>
    split at hs
    · cases hs; exact Or.inl rfl
    · cases hs
  case wroteCompleted =>
    cases hs
    show wakeAll (s.consumers c) = _ ∨ _
    cases hk : (s.consumers c).pc <;> simp [wakeAll, hk]
  case done => cases hs
  all_goals (cases hs; exact Or.inl rfl)

theorem stepConsumer_other {T : Type} {N : Nat} {s s' : State T N} {c d : Fin N}
    (hs : stepConsumer s c = some s') (hd : d ≠ c) : s'.consumers d = s.consumers d := by
  unfold stepConsumer at hs
  simp only at hs
  cases hk : (s.consumers c).pc <;> simp only [hk] at hs
  all_goals try split at hs
  all_goals first
    | (cases hs; done)
    | (cases hs; exact setConsumer_other _ _ hd)

theorem stepConsumer_next {T : Type} {N : Nat} {s s' : State T N} {c : Fin N}
    (hs : stepConsumer s c = some s') : (s.consumers c).Next (s'.consumers c) := by
  unfold stepConsumer at hs
  simp only at hs
  cases hk : (s.consumers c).pc <;> simp only [hk] at hs
  all_goals try split at hs
  all_goals first
    | (cases hs; done)
    | (cases hs; simp [Consumer.Next, hk, CPc.method, Ret.method]; done)
    | (cases hs; simp_all [Consumer.Next, CPc.method, Ret.method])

theorem step_next {T P : Type} [Inhabited T] [FmtV P] {N : Nat} {cb : Outcome T P}
    {s s' : State T N} {l : Label N} (hs : step cb s l = some s') (c : Fin N) :
    (s.consumers c).Next (s'.consumers c) := by
  cases l with
  | producer =>
    rcases stepProducer_consumers hs c with h | ⟨g, hg, h⟩
    · exact Or.inl (Or.inr h)
    · rw [h]
      simp [Consumer.Next, hg, CPc.method]
  | call d m =>
    simp only [step] at hs
    split at hs
    · rename_i hidle
      cases hs
      by_cases hd : c = d
      · subst hd
        rw [setConsumer_same]
        cases m <;> simp [Consumer.Next, hidle, Method.entry]
      · rw [setConsumer_other _ _ hd]
        exact Or.inl (Or.inr rfl)
    · cases hs
  | consumer d =>
    by_cases hd : c = d
    · subst hd
      exact stepConsumer_next hs
    · rw [stepConsumer_other hs hd]
      exact Or.inl (Or.inr rfl)

/-- A consumer never writes the struct, and never touches the spawned goroutine. -/
theorem stepConsumer_frame {T : Type} {N : Nat} {s s' : State T N} {c : Fin N}
    (hs : stepConsumer s c = some s') :
    s'.f = s.f ∧ s'.producer = s.producer ∧ s'.runs = s.runs := by
  unfold stepConsumer at hs
  simp only at hs
  cases hk : (s.consumers c).pc <;> simp only [hk] at hs
  all_goals try split at hs
  all_goals first
    | (cases hs; done)
    | (cases hs; exact ⟨rfl, rfl, rfl⟩)

/-! ## Progress: a call can always be brought to its return -/

theorem mu_consumer_lt {T : Type} {N : Nat} {s s' : State T N} (d : Fin N)
    (hf : s'.f = s.f) (hp : s'.producer = s.producer)
    (hother : ∀ e, e ≠ d → s'.consumers e = s.consumers e)
    (hlt : (s'.consumers d).pc.rank s.f.completed < (s.consumers d).pc.rank s.f.completed) :
    s'.mu < s.mu := by
  unfold State.mu
  rw [hp, hf]
  refine Nat.add_lt_add_left (Finset.sum_lt_sum (fun e _ => ?_) ⟨d, Finset.mem_univ d, hlt⟩) _
  by_cases he : e = d
  · subst he; exact Nat.le_of_lt hlt
  · rw [hother e he]

/-- A consumer that holds the mutex, or that is inside a call while the mutex is free
and the spawned goroutine has ended, can take a step, and the step brings it closer to
its return. -/
theorem stepConsumer_progress {T P : Type} [Inhabited T] [FmtV P] {N : Nat}
    {cb : Outcome T P} {s : State T N} (h : Inv cb s) (d : Fin N)
    (hd : (s.consumers d).pc.critical = true ∨
      (s.lock = none ∧ s.producer = .done ∧ (s.consumers d).pc ≠ .idle)) :
    ∃ s', stepConsumer s d = some s' ∧ s'.mu < s.mu := by
  suffices hsuff : ∃ s', stepConsumer s d = some s' ∧
      (s'.consumers d).pc.rank s.f.completed < (s.consumers d).pc.rank s.f.completed by
    obtain ⟨s', hs, hlt⟩ := hsuff
    obtain ⟨hf, hp, -⟩ := stepConsumer_frame hs
    exact ⟨s', hs, mu_consumer_lt d hf hp (fun e he => stepConsumer_other hs he) hlt⟩
  obtain ⟨c1, c2, -⟩ := h.cons d
  have hcomp : s.producer = .done → s.f.completed = true := by
    intro hp
    have := h.prod.2
    simp only [hp] at this
    obtain ⟨_, _, _, _, _, hc, _⟩ := this
    exact hc
  unfold stepConsumer
  simp only
  cases hk : (s.consumers d).pc <;> simp only [hk] at c1 c2 hd ⊢
  case idle => simp [CPc.critical] at hd
  case icLock =>
    have hfree : s.lock = none := by
      have := hd
      simp only [CPc.critical] at this
      simp at this
      exact this.1
    simp [hfree, CPc.rank]
  case icRead => simp [CPc.rank]
  case icUnlock r => simp [CPc.rank]
  case wLock g =>
    have hfree : s.lock = none := by
      have := hd
      simp only [CPc.critical] at this
      simp at this
      exact this.1
    have hc : s.f.completed = true := by
      rcases hd with hd | hd
      · simp [CPc.critical] at hd
      · exact hcomp hd.2.1
    simp [hfree, CPc.rank, hc]
  case wTest g =>
    cases hc : s.f.completed <;> simp [CPc.rank]
  case wBody g => simp [CPc.rank]
  case wSleep g =>
    rcases hd with hd | hd
    · simp [CPc.critical] at hd
    · rw [hd.2.1] at c2
      simp [PPc.beforeBroadcast] at c2
  case wWoken g =>
    have hfree : s.lock = none := by
      have := hd
      simp only [CPc.critical] at this
      simp at this
      exact this.1
    simp [hfree, CPc.rank, c2]
  case wUnlock g =>
    cases g <;> simp [CPc.rank, unlockRank]
  case grDeref =>
    obtain ⟨r, e, -, hres, -⟩ := h.prod.of_completed c2
    simp [hres, CPc.rank]
  case grErr v => simp [CPc.rank]

theorem rank_true_le {T : Type} (b : Bool) (pc : CPc T) : pc.rank true ≤ pc.rank b := by
  cases b
  · cases pc <;> simp [CPc.rank]
  · exact Nat.le_refl _

/-- The spawned goroutine can take a step whenever it holds the mutex, or the mutex is
free and it has not ended, provided `do(cb)` returns; the step lowers the measure. -/
theorem stepProducer_progress {T P : Type} [Inhabited T] [FmtV P] {N : Nat}
    {cb : Outcome T P} {s : State T N} (h : Inv cb s) (hdo : «do» cb ≠ none)
    (hd : s.lock = some Tid.producer ∨ (s.lock = none ∧ s.producer ≠ .done)) :
    ∃ s', stepProducer cb s = some s' ∧ s'.mu < s.mu := by
  suffices hsuff : ∃ s', stepProducer cb s = some s' ∧ s'.producer.rank < s.producer.rank ∧
      (s'.f.completed = s.f.completed ∨ s'.f.completed = true) by
    obtain ⟨s', hs, hlt, hcomp⟩ := hsuff
    refine ⟨s', hs, Nat.add_lt_add_of_lt_of_le hlt (Finset.sum_le_sum fun e _ => ?_)⟩
    rcases stepProducer_consumers hs e with he | ⟨g, hg, he⟩
    · rw [he]
      rcases hcomp with hc | hc
      · rw [hc]
      · rw [hc]; exact rank_true_le _ _
    · rw [he, hg]
      cases s'.f.completed <;> cases s.f.completed <;> simp [CPc.rank]
  obtain ⟨p1, p2⟩ := h.prod
  unfold stepProducer
  cases hpc : s.producer <;> simp only [hpc] at p1 p2 hd ⊢
  case spawned => simp [PPc.rank]
  case running =>
    cases hcb : «do» cb with
    | none => exact absurd hcb hdo
    | some x => simp [PPc.rank]
  case computed r e =>
    have hfree : s.lock = none := by
      rcases hd with hd | hd
      · have := p1.1 hd
        simp [PPc.critical] at this
      · exact hd.1
    simp [hfree, PPc.rank]
  case done =>
    rcases hd with hd | hd
    · have := p1.1 hd
      simp [PPc.critical] at this
    · exact absurd rfl hd.2
  all_goals simp [PPc.rank]

/-- As long as consumer `c` is inside a call and `do(cb)` returns, some goroutine can
take a step that lowers the measure. -/
theorem progress {T P : Type} [Inhabited T] [FmtV P] {N : Nat} {cb : Outcome T P}
    {s : State T N} (h : Inv cb s) (hdo : «do» cb ≠ none) (c : Fin N)
    (hc : (s.consumers c).pc ≠ .idle) :
    ∃ l s', step cb s l = some s' ∧ s'.mu < s.mu ∧ l.isCall = false := by
  cases hl : s.lock with
  | none =>
    by_cases hp : s.producer = .done
    · obtain ⟨s', hs, hlt⟩ := stepConsumer_progress h c (Or.inr ⟨hl, hp, hc⟩)
      exact ⟨.consumer c, s', hs, hlt, rfl⟩
    · obtain ⟨s', hs, hlt⟩ := stepProducer_progress h hdo (Or.inr ⟨hl, hp⟩)
      exact ⟨.producer, s', hs, hlt, rfl⟩
  | some t =>
    cases t with
    | producer =>
      obtain ⟨s', hs, hlt⟩ := stepProducer_progress h hdo (Or.inl hl)
      exact ⟨.producer, s', hs, hlt, rfl⟩
    | consumer d =>
      obtain ⟨s', hs, hlt⟩ := stepConsumer_progress h d (Or.inl ((h.cons d).1.1 hl))
      exact ⟨.consumer d, s', hs, hlt, rfl⟩

/-- From every state that satisfies the invariant, a call in progress can be brought to
its return: some continuation of the schedule, which starts no new call, ends with the
consumer idle again and one more value, of the method it called, in its log. -/
theorem can_return {T P : Type} [Inhabited T] [FmtV P] {N : Nat} {cb : Outcome T P}
    (hdo : «do» cb ≠ none) (c : Fin N) (m : Method) (n : Nat) :
    ∀ s : State T N, s.mu = n → Inv cb s → (s.consumers c).pc.method = some m →
      ∃ sched s', run cb s sched = some s' ∧ (s'.consumers c).pc = .idle ∧
        (∃ x, (s'.consumers c).log = (s.consumers c).log ++ [x] ∧ x.method = m) ∧
        ∀ l ∈ sched, l.isCall = false := by
  induction n using Nat.strong_induction_on with
  | _ n ih =>
    intro s hn h hm
    have hc : (s.consumers c).pc ≠ .idle := by
      intro hi
      rw [hi] at hm
      simp [CPc.method] at hm
    obtain ⟨l, s1, hs, hlt, hcall⟩ := progress h hdo c hc
    have h1 := inv_step h hs
    have key : (s1.consumers c).pc.method = some m ∧ (s1.consumers c).log = (s.consumers c).log →
        ∃ sched s', run cb s sched = some s' ∧ (s'.consumers c).pc = .idle ∧
          (∃ x, (s'.consumers c).log = (s.consumers c).log ++ [x] ∧ x.method = m) ∧
          ∀ l ∈ sched, l.isCall = false := by
      rintro ⟨hm1, hlog⟩
      obtain ⟨sched, s', hr, hi, ⟨x, hx, hxm⟩, hnc⟩ := ih s1.mu (hn ▸ hlt) s1 rfl h1 hm1
      refine ⟨l :: sched, s', ?_, hi, ⟨x, ?_, hxm⟩, ?_⟩
      · simp [run, hs, hr]
      · rw [hx, hlog]
      · intro l' hl'
        rcases List.mem_cons.1 hl' with rfl | hl'
        · exact hcall
        · exact hnc l' hl'
    rcases step_next hs c with (⟨hlog, hmeth, -⟩ | hsame) | ⟨hi, x, hx, hxm⟩
    · rcases hmeth with hmeth | hidle
      · exact key ⟨hmeth.trans hm, hlog⟩
      · exact absurd hidle hc
    · exact key ⟨by rw [hsame]; exact hm, by rw [hsame]⟩
    · refine ⟨[l], s1, by simp [run, hs], hi, ⟨x, hx, ?_⟩, ?_⟩
      · rw [hm] at hxm
        exact (Option.some.inj hxm).symm
      · intro l' hl'
        rw [List.mem_singleton.1 hl']
        exact hcall

/-- The value a `GetResult` logged is the pair `do(cb)` returned. -/
theorem getResult_logged {T P : Type} [Inhabited T] [FmtV P] {N : Nat} {cb : Outcome T P}
    {s : State T N} (h : Inv cb s) {c : Fin N} {v : T} {e : error}
    (hx : Ret.getResult v e ∈ (s.consumers c).log) : «do» cb = some (v, e) := by
  obtain ⟨hc, hres, herr⟩ := (h.cons c).2.2 _ hx
  obtain ⟨r, e', hdo, hr, he, -⟩ := h.prod.of_completed hc
  rw [hres] at hr
  rw [hdo, ← Option.some.inj hr, ← he, herr]

/-- A call of `GetResult` in progress can be brought to its return, and what it returns
is the pair `do(cb)` returned. -/
theorem getResult_returns {T P : Type} [Inhabited T] [FmtV P] {N : Nat} {cb : Outcome T P}
    {v : T} {e : error} (hdo : «do» cb = some (v, e)) {s : State T N} (h : Inv cb s)
    (c : Fin N) (hm : (s.consumers c).pc.method = some .GetResult) :
    ∃ sched s', run cb s sched = some s' ∧ (s'.consumers c).pc = .idle ∧
      (s'.consumers c).log = (s.consumers c).log ++ [Ret.getResult v e] := by
  have hdo' : «do» cb ≠ none := by rw [hdo]; simp
  obtain ⟨sched, s', hr, hi, ⟨x, hx, hxm⟩, -⟩ := can_return hdo' c .GetResult s.mu s rfl h hm
  refine ⟨sched, s', hr, hi, ?_⟩
  cases x with
  | getResult v' e' =>
    have hmem : Ret.getResult v' e' ∈ (s'.consumers c).log := by rw [hx]; simp
    have := getResult_logged (inv_run h hr) hmem
    rw [hdo] at this
    obtain ⟨rfl, rfl⟩ := Prod.mk.inj (Option.some.inj this)
    exact hx
  | isCompleted b => simp [Ret.method] at hxm
  | wait => simp [Ret.method] at hxm

/-- Contract of `GetResult` on the future returned by `Run(cb)` when `do(cb)` returns
`(v, e)`: whatever the interleaving, a `GetResult` that has returned gave `(v, e)`, and a
`GetResult` in progress can be brought to return `(v, e)`. -/
theorem getResult_contract {T P : Type} [Inhabited T] [FmtV P] {N : Nat} {cb : Outcome T P}
    {v : T} {e : error} (hdo : «do» cb = some (v, e)) {s : State T N}
    (hs : Reachable cb s) (c : Fin N) :
    (∀ v' e', Ret.getResult v' e' ∈ (s.consumers c).log → v' = v ∧ e' = e) ∧
    ((s.consumers c).pc.method = some .GetResult →
      ∃ sched s', run cb s sched = some s' ∧ (s'.consumers c).pc = .idle ∧
        (s'.consumers c).log = (s.consumers c).log ++ [Ret.getResult v e]) := by
  refine ⟨fun v' e' hx => ?_, getResult_returns hdo (inv_of_reachable hs) c⟩
  have := getResult_logged (inv_of_reachable hs) hx
  rw [hdo] at this
  obtain ⟨rfl, rfl⟩ := Prod.mk.inj (Option.some.inj this)
  exact ⟨rfl, rfl⟩

/-! ## Calls made while nothing else moves -/

theorem isCompleted_solo {T P : Type} [Inhabited T] [FmtV P] {N : Nat} (cb : Outcome T P)
    (s : State T N) (c : Fin N) (hl : s.lock = none) (hi : (s.consumers c).pc = .idle) :
    run cb s (callSteps c .IsCompleted 3) = some (s.setConsumer c
      { s.consumers c with log := (s.consumers c).log ++ [Ret.isCompleted s.f.completed] }) := by
  obtain ⟨f, lock, producer, consumers, runs⟩ := s
  simp only at hl hi
  subst hl
  simp [callSteps, run, step, stepConsumer, hi, Method.entry, State.setConsumer,
    List.replicate]

theorem wait_solo {T P : Type} [Inhabited T] [FmtV P] {N : Nat} (cb : Outcome T P)
    (s : State T N) (c : Fin N) (hl : s.lock = none) (hi : (s.consumers c).pc = .idle)
    (hc : s.f.completed = true) :
    run cb s (callSteps c .Wait 3) = some (s.setConsumer c
      { s.consumers c with log := (s.consumers c).log ++ [Ret.wait] }) := by
  obtain ⟨f, lock, producer, consumers, runs⟩ := s
  simp only at hl hi hc
  subst hl
  simp [callSteps, run, step, stepConsumer, hi, hc, Method.entry, State.setConsumer,
    List.replicate]

theorem getResult_solo {T P : Type} [Inhabited T] [FmtV P] {N : Nat} (cb : Outcome T P)
    (s : State T N) (c : Fin N) (hl : s.lock = none) (hi : (s.consumers c).pc = .idle)
    (hc : s.f.completed = true) {v : T} (hv : s.f.result = some v) :
    run cb s (callSteps c .GetResult 5) = some (s.setConsumer c
      { s.consumers c with log := (s.consumers c).log ++ [Ret.getResult v s.f.err] }) := by
  obtain ⟨f, lock, producer, consumers, runs⟩ := s
  simp only at hl hi hc hv
  subst hl
  simp [callSteps, run, step, stepConsumer, hi, hc, hv, Method.entry, State.setConsumer,
    List.replicate]

/-- The struct of a completed future is never written again. -/
theorem step_f_of_completed {T P : Type} [Inhabited T] [FmtV P] {N : Nat}
    {cb : Outcome T P} {s s' : State T N} {l : Label N} (h : Inv cb s)
    (hc : s.f.completed = true) (hs : step cb s l = some s') : s'.f = s.f := by
  cases l with
  | producer =>
    obtain ⟨r, e, -, -, -, -, hp⟩ := h.prod.of_completed hc
    simp only [step, stepProducer] at hs
    rcases hp with hp | hp | hp <;> rw [hp] at hs <;> simp only at hs <;> cases hs <;> rfl
  | call c m =>
    simp only [step] at hs
    split at hs
    · cases hs; rfl
    · cases hs
  | consumer c => exact (stepConsumer_frame hs).1

theorem stepConsumer_waits {T P : Type} [Inhabited T] [FmtV P] {N : Nat}
    {cb : Outcome T P} {s s' : State T N} {c : Fin N} (h : Inv cb s)
    (hc : s.f.completed = true) (hs : stepConsumer s c = some s') :
    (s'.consumers c).waits = (s.consumers c).waits := by
  have c2 := (h.cons c).2.1
  simp only [stepConsumer] at hs
  cases hk : (s.consumers c).pc <;> simp only [hk] at hs c2
  case wBody g => rw [hc] at c2; cases c2
  all_goals try split at hs
  all_goals first
    | (cases hs; done)
    | (cases hs; rw [setConsumer_same])

/-- After completion nobody executes `f.cv.Wait()` any more. -/
theorem step_waits_of_completed {T P : Type} [Inhabited T] [FmtV P] {N : Nat}
    {cb : Outcome T P} {s s' : State T N} {l : Label N} (h : Inv cb s)
    (hc : s.f.completed = true) (hs : step cb s l = some s') (c : Fin N) :
    (s'.consumers c).waits = (s.consumers c).waits := by
  cases l with
  | producer =>
    rcases stepProducer_consumers hs c with h1 | ⟨g, -, h1⟩ <;> rw [h1]
  | call d m =>
    simp only [step] at hs
    split at hs
    · cases hs
      by_cases hd : c = d
      · subst hd; rw [setConsumer_same]
      · rw [setConsumer_other _ _ hd]
    · cases hs
  | consumer d =>
    by_cases hd : c = d
    · subst hd
      exact stepConsumer_waits h hc hs
    · rw [stepConsumer_other hs hd]

theorem stepConsumer_isCompleted {T : Type} {N : Nat} {s s' : State T N} {c : Fin N}
    (hc : s.f.completed = true) (hs : stepConsumer s c = some s')
    (hn : (s.consumers c).pc ≠ .icUnlock false) :
    (s'.consumers c).pc ≠ .icUnlock false ∧
      ∃ new, (s'.consumers c).log = (s.consumers c).log ++ new ∧
        Ret.isCompleted false ∉ new := by
  simp only [stepConsumer] at hs
  cases hk : (s.consumers c).pc <;> simp only [hk] at hs hn
  case icRead =>
    cases hs
    rw [setConsumer_same]
    exact ⟨by simp [hc], [], by simp, by simp⟩
  case icUnlock r =>
    cases hs
    rw [setConsumer_same]
    refine ⟨by simp, [Ret.isCompleted r], rfl, ?_⟩
    cases r
    · exact absurd rfl hn
    · simp
  case wUnlock g =>
    split at hs
    · cases hs
      rw [setConsumer_same]
      exact ⟨by simp, [], by simp, by simp⟩
    · cases hs
      rw [setConsumer_same]
      exact ⟨by simp, [Ret.wait], rfl, by simp⟩
  case grErr v =>
    cases hs
    rw [setConsumer_same]
    exact ⟨by simp, [Ret.getResult v s.f.err], rfl, by simp⟩
  all_goals try split at hs
  all_goals first
    | (cases hs; done)
    | (cases hs; rw [setConsumer_same]; exact ⟨by simp, [], by simp, by simp⟩)

/-- A consumer that has not read `false` in `IsCompleted` before the future completed
never returns `false` from `IsCompleted` afterwards. -/
theorem step_isCompleted_of_completed {T P : Type} [Inhabited T] [FmtV P] {N : Nat}
    {cb : Outcome T P} {s s' : State T N} {l : Label N}
    (hc : s.f.completed = true) (hs : step cb s l = some s') (c : Fin N)
    (hn : (s.consumers c).pc ≠ .icUnlock false) :
    (s'.consumers c).pc ≠ .icUnlock false ∧
      ∃ new, (s'.consumers c).log = (s.consumers c).log ++ new ∧
        Ret.isCompleted false ∉ new := by
  have same : ∀ k : Consumer T, k = s.consumers c →
      k.pc ≠ .icUnlock false ∧ ∃ new, k.log = (s.consumers c).log ++ new ∧
        Ret.isCompleted false ∉ new := by
    rintro k rfl
    exact ⟨hn, [], by simp, by simp⟩
  cases l with
  | producer =>
    rcases stepProducer_consumers hs c with h1 | ⟨g, -, h1⟩
    · exact same _ h1
    · rw [h1]
      exact ⟨by simp, [], by simp, by simp⟩
  | call d m =>
    simp only [step] at hs
    split at hs
    · cases hs
      by_cases hd : c = d
      · subst hd
        rw [setConsumer_same]
        exact ⟨by cases m <;> simp [Method.entry], [], by simp, by simp⟩
      · exact same _ (setConsumer_other _ _ hd)
    · cases hs
  | consumer d =>
    by_cases hd : c = d
    · subst hd
      exact stepConsumer_isCompleted hc hs hn
    · exact same _ (stepConsumer_other hs hd)

/-- What holds of every state a schedule leads to from a completed future. -/
theorem run_of_completed {T P : Type} [Inhabited T] [FmtV P] {N : Nat} {cb : Outcome T P}
    {s s' : State T N} (h : Inv cb s) (hc : s.f.completed = true) {sched : List (Label N)}
    (hr : run cb s sched = some s') :
    s'.f = s.f ∧ (∀ c, (s'.consumers c).waits = (s.consumers c).waits) ∧
      ∀ c, (s.consumers c).pc ≠ .icUnlock false →
        ∃ new, (s'.consumers c).log = (s.consumers c).log ++ new ∧
          Ret.isCompleted false ∉ new := by
  induction sched generalizing s with
  | nil =>
    simp only [run, Option.some.injEq] at hr
    subst hr
    exact ⟨rfl, fun _ => rfl, fun c _ => ⟨[], by simp, by simp⟩⟩
  | cons l ls ih =>
    simp only [run] at hr
    cases hstep : step cb s l with
    | none => simp [hstep] at hr
    | some s1 =>
      rw [hstep] at hr
      have hf := step_f_of_completed h hc hstep
      obtain ⟨i1, i2, i3⟩ := ih (inv_step h hstep) (by rw [hf]; exact hc) hr
      refine ⟨i1.trans hf, fun c => (i2 c).trans (step_waits_of_completed h hc hstep c),
        fun c hn => ?_⟩
      obtain ⟨hn1, new1, hlog1, hnew1⟩ := step_isCompleted_of_completed hc hstep c hn
      obtain ⟨new2, hlog2, hnew2⟩ := i3 c hn1
      refine ⟨new1 ++ new2, by rw [hlog2, hlog1, List.append_assoc], ?_⟩
      simp only [List.mem_append, not_or]
      exact ⟨hnew1, hnew2⟩

theorem run_execFrom {T P : Type} [Inhabited T] [FmtV P] {N : Nat} (cb : Outcome T P)
    (s : State T N) (sched : List (Label N)) (h : (run cb s sched).isSome = true) :
    run cb s sched = some (execFrom cb s sched) := by
  unfold execFrom
  cases hr : run cb s sched with
  | none => rw [hr] at h; cases h
  | some s' => rfl

theorem wait_repeated {T P : Type} [Inhabited T] [FmtV P] {N : Nat} (cb : Outcome T P)
    (c : Fin N) (n : Nat) :
    ∀ s : State T N, s.lock = none → (s.consumers c).pc = .idle → s.f.completed = true →
      run cb s (repeatCalls (callSteps c .Wait 3) n) = some (s.setConsumer c
        { s.consumers c with log := (s.consumers c).log ++ List.replicate n Ret.wait }) := by
  induction n with
  | zero =>
    intro s _ _ _
    simp [repeatCalls, run, State.setConsumer]
  | succ n ih =>
    intro s hl hi hc
    rw [repeatCalls, run_append, wait_solo cb s c hl hi hc]
    simp only [Option.some_bind]
    rw [ih _ (by simpa using hl) (by simpa using hi) (by simpa using hc)]
    simp [State.setConsumer, List.replicate_succ]

/-! ## The claims on one future -/

/-- C1 (error passthrough).  Let `cb` return normally with the pair `(v, e)`, `e` nil or
not.  Then `do(cb)` returns `(v, e)`, and in every state the future returned by `Run(cb)`
can reach, under any interleaving of any number of consumers: every `GetResult` that has
returned gave exactly the value `v` and the very error value `e`; and every `GetResult`
still in progress can be brought to its return, where it gives `(v, e)`. -/
theorem error_passthrough {T P : Type} [Inhabited T] [FmtV P] {N : Nat} (v : T) (e : error)
    (s : State T N) (hs : Reachable (Outcome.returns v e : Outcome T P) s) (c : Fin N) :
    «do» (Outcome.returns v e : Outcome T P) = some (v, e) ∧
    (∀ v' e', Ret.getResult v' e' ∈ (s.consumers c).log → v' = v ∧ e' = e) ∧
    ((s.consumers c).pc.method = some .GetResult →
      ∃ sched s', run (Outcome.returns v e : Outcome T P) s sched = some s' ∧
        (s'.consumers c).pc = .idle ∧
        (s'.consumers c).log = (s.consumers c).log ++ [Ret.getResult v e]) :=
  have hdo : «do» (Outcome.returns v e : Outcome T P) = some (v, e) := rfl
  ⟨hdo, getResult_contract hdo hs c⟩

/-- Witness of C1 on the computation of `TestRun_Error`: after the schedule in which the
consumer sleeps in `cv.Wait()` its log holds the returned pair, and in the state where it
is asleep its call can be finished. -/
theorem error_passthrough_witness :
    (Ret.getResult "" (some (.custom 0 "test error")) ∈
        ((exec testErrorCb (sleeperSchedule (0 : Fin 1))).consumers 0).log ∧
      ("" = "" ∧ some (GoError.custom 0 "test error") = some (.custom 0 "test error"))) ∧
    (((exec testErrorCb (callSteps (0 : Fin 1) .GetResult 3)).consumers 0).pc.method
        = some .GetResult ∧
      ∃ sched s', run testErrorCb (exec testErrorCb (callSteps (0 : Fin 1) .GetResult 3)) sched
          = some s' ∧ (s'.consumers 0).pc = .idle ∧
        (s'.consumers 0).log =
          ((exec testErrorCb (callSteps (0 : Fin 1) .GetResult 3)).consumers 0).log ++
            [Ret.getResult "" (some (.custom 0 "test error"))]) :=
  ⟨⟨by decide,
      (error_passthrough "" (some (.custom 0 "test error")) _
        (reachable_exec testErrorCb (sleeperSchedule (0 : Fin 1))) 0).2.1 _ _ (by decide)⟩,
    ⟨by decide,
      (error_passthrough "" (some (.custom 0 "test error")) _
        (reachable_exec testErrorCb (callSteps (0 : Fin 1) .GetResult 3)) 0).2.2 (by decide)⟩⟩

/-- C2, the claim as stated, fails.  The computation `nilPanicCb` panics, with
`recover()` returning nil; the guard `r != nil` of `do` then leaves `err` alone, and
`GetResult` on the future returns the zero value together with a nil error. -/
theorem panic_downgrade_counterexample :
    «do» nilPanicCb = some ("", none) ∧
    Reachable nilPanicCb (exec nilPanicCb (sleeperSchedule (0 : Fin 1))) ∧
    ((exec nilPanicCb (sleeperSchedule (0 : Fin 1))).consumers 0).log
      = [Ret.getResult "" none] ∧
    ¬ ∃ e : GoError, Ret.getResult "" (some e) ∈
      ((exec nilPanicCb (sleeperSchedule (0 : Fin 1))).consumers 0).log := by
  have hlog : ((exec nilPanicCb (sleeperSchedule (0 : Fin 1))).consumers 0).log
      = [Ret.getResult "" none] := by decide
  refine ⟨by decide, reachable_exec _ _, hlog, ?_⟩
  rintro ⟨e, he⟩
  rw [hlog] at he
  simp at he

/-- C2 as amended (fault downgrade).  For every computation that panics, `do` returns
normally: the panic does not propagate.  When the value `r` that `recover()` returns is
not nil, `do(cb)` returns the zero value of `T` and a non-nil error whose message is
`"panic occured: "` followed by the `%v` text of `r`; and in every state the future
returned by `Run(cb)` can reach, every `GetResult` that has returned gave that pair, and
every `GetResult` still in progress can be brought to its return, where it gives that
pair. -/
theorem panic_downgrade {T P : Type} [Inhabited T] [FmtV P] {N : Nat} (r : P)
    (s : State T N) (hs : Reachable (Outcome.panics (some r) : Outcome T P) s) (c : Fin N) :
    (∀ q : Option P, «do» (Outcome.panics q : Outcome T P) ≠ none) ∧
    («do» (Outcome.panics (some r) : Outcome T P) = some (default, some (Errorf r)) ∧
      (Errorf r).Error = "panic occured: " ++ FmtV.sprint r) ∧
    (∀ v' e', Ret.getResult v' e' ∈ (s.consumers c).log →
      v' = default ∧ e' = some (Errorf r)) ∧
    ((s.consumers c).pc.method = some .GetResult →
      ∃ sched s', run (Outcome.panics (some r) : Outcome T P) s sched = some s' ∧
        (s'.consumers c).pc = .idle ∧
        (s'.consumers c).log =
          (s.consumers c).log ++ [Ret.getResult default (some (Errorf r))]) :=
  have hdo : «do» (Outcome.panics (some r) : Outcome T P)
      = some (default, some (Errorf r)) := rfl
  ⟨fun q => by cases q <;> simp [«do», recover], ⟨hdo, rfl⟩, getResult_contract hdo hs c⟩

/-- Witness of the amended C2 on the computation of `TestGetResult_Panic`. -/
theorem panic_downgrade_witness :
    (Ret.getResult "" (some (.errorf "panic occured: test panic")) ∈
        ((exec testPanicCb (sleeperSchedule (0 : Fin 1))).consumers 0).log ∧
      ("" = (default : String) ∧
        some (GoError.errorf "panic occured: test panic") = some (Errorf "test panic"))) ∧
    (((exec testPanicCb (callSteps (0 : Fin 1) .GetResult 3)).consumers 0).pc.method
        = some .GetResult ∧
      ∃ sched s', run testPanicCb (exec testPanicCb (callSteps (0 : Fin 1) .GetResult 3)) sched
          = some s' ∧ (s'.consumers 0).pc = .idle ∧
        (s'.consumers 0).log =
          ((exec testPanicCb (callSteps (0 : Fin 1) .GetResult 3)).consumers 0).log ++
            [Ret.getResult default (some (Errorf "test panic"))]) :=
  ⟨⟨by decide,
      (panic_downgrade "test panic" _
        (reachable_exec testPanicCb (sleeperSchedule (0 : Fin 1))) 0).2.2.1 _ _ (by decide)⟩,
    ⟨by decide,
      (panic_downgrade "test panic" _
        (reachable_exec testPanicCb (callSteps (0 : Fin 1) .GetResult 3)) 0).2.2.2
        (by decide)⟩⟩

/-- C3 (write-once).  In the step relation of a future the completed state is absorbing:
from a reachable state with `completed = true`, every schedule leads to a state whose
struct is the same, so `completed` is still true and the stored value and error are
unchanged; a consumer that had not already read the flag before completion gets no
`false` from `IsCompleted` any more; and any two `GetResult` calls, of any consumers,
have returned the same pair, the stored one. -/
theorem write_once {T P : Type} [Inhabited T] [FmtV P] {N : Nat} (cb : Outcome T P)
    (s : State T N) (hs : Reachable cb s) (hc : s.f.completed = true)
    (sched : List (Label N)) (s' : State T N) (hr : run cb s sched = some s') :
    (s'.f.completed = true ∧ s'.f.result = s.f.result ∧ s'.f.err = s.f.err) ∧
    (∀ c, (s.consumers c).pc ≠ .icUnlock false →
      ∃ new, (s'.consumers c).log = (s.consumers c).log ++ new ∧
        Ret.isCompleted false ∉ new) ∧
    (∀ c d v₁ e₁ v₂ e₂, Ret.getResult v₁ e₁ ∈ (s'.consumers c).log →
      Ret.getResult v₂ e₂ ∈ (s'.consumers d).log →
      (v₁ = v₂ ∧ e₁ = e₂) ∧ s.f.result = some v₁ ∧ s.f.err = e₁) := by
  have h := inv_of_reachable hs
  obtain ⟨hf, -, h3⟩ := run_of_completed h hc hr
  have h' := inv_run h hr
  refine ⟨by rw [hf]; exact ⟨hc, rfl, rfl⟩, h3, fun c d v₁ e₁ v₂ e₂ m₁ m₂ => ?_⟩
  obtain ⟨-, r₁, q₁⟩ := (h'.cons c).2.2 _ m₁
  obtain ⟨-, r₂, q₂⟩ := (h'.cons d).2.2 _ m₂
  rw [hf] at r₁ q₁ r₂ q₂
  refine ⟨⟨?_, by rw [← q₁, ← q₂]⟩, r₁, q₁⟩
  rw [r₁] at r₂
  exact Option.some.inj r₂

/-- Witness of C3: a completed future of `TestRun_Success` on which the calls go on. -/
theorem write_once_witness :
    (completedStart.f.completed = true ∧
      (run testSuccessCb completedStart afterCompletion).isSome = true) ∧
    ((execFrom testSuccessCb completedStart afterCompletion).f.completed = true ∧
      (execFrom testSuccessCb completedStart afterCompletion).f.result
        = completedStart.f.result ∧
      (execFrom testSuccessCb completedStart afterCompletion).f.err
        = completedStart.f.err) ∧
    (∃ new, ((execFrom testSuccessCb completedStart afterCompletion).consumers 1).log
        = (completedStart.consumers 1).log ++ new ∧ Ret.isCompleted false ∉ new) ∧
    (("test_result" = "test_result" ∧ (none : error) = none) ∧
      completedStart.f.result = some "test_result" ∧ completedStart.f.err = none) :=
  have hw := write_once testSuccessCb completedStart (reachable_exec _ _) (by decide)
    afterCompletion _ (run_execFrom _ _ _ (by decide))
  ⟨⟨by decide, by decide⟩, hw.1, hw.2.1 1 (by decide),
    hw.2.2 0 1 "test_result" none "test_result" none (by decide) (by decide)⟩

/-- C5, the claim as stated, fails.  The computation `return "partial", customError`
completes its future with the pointer `result` set (and pointing to a non-zero value) and
with `err` set as well: both are set, not exactly one. -/
theorem success_xor_failure_counterexample :
    Reachable partialFailureCb (exec partialFailureCb (producerSteps 1)) ∧
    (exec partialFailureCb (producerSteps 1)).f.completed = true ∧
    (exec partialFailureCb (producerSteps 1)).f.result = some "partial" ∧
    (exec partialFailureCb (producerSteps 1)).f.err = some (.custom 0 "test error") ∧
    ¬ Xor' ((exec partialFailureCb (producerSteps 1)).f.result ≠ none)
      ((exec partialFailureCb (producerSteps 1)).f.err ≠ none) := by
  refine ⟨reachable_exec _ _, by decide, by decide, by decide, ?_⟩
  have h1 : (exec partialFailureCb (producerSteps 1)).f.result ≠ none := by decide
  have h2 : (exec partialFailureCb (producerSteps 1)).f.err ≠ none := by decide
  rintro (⟨-, h⟩ | ⟨-, h⟩)
  · exact h h2
  · exact h h1

/-- C5 as amended.  In every reachable state with `completed = true` the pointer `result`
is set and points to the value `do(cb)` returned, and `err` is the error `do(cb)`
returned: the value is stored whether the computation succeeded or failed, and `err` is
set exactly when it failed. -/
theorem completed_outcome {T P : Type} [Inhabited T] [FmtV P] {N : Nat} (cb : Outcome T P)
    (s : State T N) (hs : Reachable cb s) (hc : s.f.completed = true) :
    ∃ v e, «do» cb = some (v, e) ∧ s.f.result = some v ∧ s.f.err = e := by
  obtain ⟨v, e, hdo, hr, he, -⟩ := (inv_of_reachable hs).prod.of_completed hc
  exact ⟨v, e, hdo, hr, he⟩

/-- Witness of the amended C5 on the computation `return "partial", customError`. -/
theorem completed_outcome_witness :
    (exec partialFailureCb (producerSteps 1)).f.completed = true ∧
    ∃ v e, «do» partialFailureCb = some (v, e) ∧
      (exec partialFailureCb (producerSteps 1)).f.result = some v ∧
      (exec partialFailureCb (producerSteps 1)).f.err = e :=
  ⟨by decide, completed_outcome partialFailureCb _ (reachable_exec _ _) (by decide)⟩

/-- C7 (no premature completion).  The future returned by `Run` starts with
`completed = false`.  In every reachable state in which the computation has not yet
returned or panicked, the flag is false, every `IsCompleted` that has returned gave
`false`, and an `IsCompleted` called now (mutex free) returns `false`.  Conversely
`completed = true` implies that `do(cb)` is over and that its outcome is stored; an
`IsCompleted()` that has returned `true`, or that has read `true` and is about to return
it, implies the same: the flag is set, `do(cb)` is over and its outcome is stored.  What
an `IsCompleted` called with the mutex free returns is the flag `completed` itself. -/
theorem no_premature_completion {T P : Type} [Inhabited T] [FmtV P] {N : Nat}
    (cb : Outcome T P) (s : State T N) (hs : Reachable cb s) :
    (Run N : State T N).f.completed = false ∧
    (s.producer.finished = false →
      s.f.completed = false ∧
      (∀ c b, Ret.isCompleted b ∈ (s.consumers c).log → b = false) ∧
      (∀ c, s.lock = none → (s.consumers c).pc = .idle →
        ∃ s', run cb s (callSteps c .IsCompleted 3) = some s' ∧
          (s'.consumers c).log = (s.consumers c).log ++ [Ret.isCompleted false])) ∧
    (s.f.completed = true →
      s.producer.finished = true ∧
      ∃ v e, «do» cb = some (v, e) ∧ s.f.result = some v ∧ s.f.err = e) ∧
    (∀ c, (Ret.isCompleted true ∈ (s.consumers c).log ∨
        (s.consumers c).pc = .icUnlock true) →
      s.f.completed = true ∧ s.producer.finished = true ∧
      ∃ v e, «do» cb = some (v, e) ∧ s.f.result = some v ∧ s.f.err = e) ∧
    (∀ c, s.lock = none → (s.consumers c).pc = .idle →
      run cb s (callSteps c .IsCompleted 3) = some (s.setConsumer c
        { s.consumers c with
          log := (s.consumers c).log ++ [Ret.isCompleted s.f.completed] })) := by
  have h := inv_of_reachable hs
  have key : s.f.completed = true → s.producer.finished = true ∧
      ∃ v e, «do» cb = some (v, e) ∧ s.f.result = some v ∧ s.f.err = e := by
    intro hc
    obtain ⟨v, e, hdo, hr, he, -, hp⟩ := h.prod.of_completed hc
    refine ⟨?_, v, e, hdo, hr, he⟩
    rcases hp with hp | hp | hp <;> rw [hp] <;> rfl
  have seen : ∀ c, (Ret.isCompleted true ∈ (s.consumers c).log ∨
      (s.consumers c).pc = .icUnlock true) → s.f.completed = true := by
    rintro c (hlog | hpc)
    · exact (h.cons c).2.2 _ hlog rfl
    · have c2 := (h.cons c).2.1
      rw [hpc] at c2
      exact c2 rfl
  refine ⟨rfl, fun hnf => ?_, key, fun c hc => ⟨seen c hc, key (seen c hc)⟩,
    fun c hl hi => isCompleted_solo cb s c hl hi⟩
  have hc : s.f.completed = false := by
    cases hcomp : s.f.completed with
    | false => rfl
    | true => rw [(key hcomp).1] at hnf; cases hnf
  refine ⟨hc, fun c b hb => ?_, fun c hl hi => ?_⟩
  · cases b with
    | false => rfl
    | true =>
      have := (h.cons c).2.2 _ hb rfl
      rw [hc] at this
      cases this
  · refine ⟨_, isCompleted_solo cb s c hl hi, ?_⟩
    rw [setConsumer_same, hc]

/-- Witness of C7 on `TestRun_Success`: while the computation runs, a consumer polls and
gets `false`; after the spawned goroutine has ended, a consumer polls and gets `true`. -/
theorem no_premature_completion_witness :
    ((exec testSuccessCb
        ([Label.producer] ++ callSteps (0 : Fin 1) .IsCompleted 3)).producer.finished = false ∧
      Ret.isCompleted false ∈ ((exec testSuccessCb
        ([Label.producer] ++ callSteps (0 : Fin 1) .IsCompleted 3)).consumers 0).log ∧
      false = false) ∧
    ((exec testSuccessCb (producerSteps 1)).f.completed = true ∧
      (exec testSuccessCb (producerSteps 1)).producer.finished = true ∧
      ∃ v e, «do» testSuccessCb = some (v, e) ∧
        (exec testSuccessCb (producerSteps 1)).f.result = some v ∧
        (exec testSuccessCb (producerSteps 1)).f.err = e) ∧
    (Ret.isCompleted true ∈ ((exec testSuccessCb
        (producerSteps 1 ++ callSteps (0 : Fin 1) .IsCompleted 3)).consumers 0).log ∧
      (exec testSuccessCb
        (producerSteps 1 ++ callSteps (0 : Fin 1) .IsCompleted 3)).f.completed = true ∧
      (exec testSuccessCb
        (producerSteps 1 ++ callSteps (0 : Fin 1) .IsCompleted 3)).producer.finished = true ∧
      ∃ v e, «do» testSuccessCb = some (v, e) ∧
        (exec testSuccessCb
          (producerSteps 1 ++ callSteps (0 : Fin 1) .IsCompleted 3)).f.result = some v ∧
        (exec testSuccessCb
          (producerSteps 1 ++ callSteps (0 : Fin 1) .IsCompleted 3)).f.err = e) :=
  ⟨⟨by decide, by decide,
      ((no_premature_completion testSuccessCb _ (reachable_exec testSuccessCb
        ([Label.producer] ++ callSteps (0 : Fin 1) .IsCompleted 3))).2.1 (by decide)).2.1
        0 false (by decide)⟩,
    ⟨by decide,
      (no_premature_completion testSuccessCb _
        (reachable_exec testSuccessCb (producerSteps 1))).2.2.1 (by decide)⟩,
    ⟨by decide,
      (no_premature_completion testSuccessCb _ (reachable_exec testSuccessCb
        (producerSteps 1 ++ callSteps (0 : Fin 1) .IsCompleted 3))).2.2.2.1 0
        (Or.inl (by decide))⟩⟩

/-- C8 (`Wait` after completion).  From a reachable state with `completed = true`, no
schedule makes any consumer execute `f.cv.Wait()` (the loop body of `Wait` runs zero
times) and none changes the struct; a call in progress can always be brought to its
return.  With the mutex free, `Wait` called `n` times in a row by an idle consumer returns
`n` times and leaves the state as it was, the log of the caller apart; `GetResult`
returns the stored pair in the same way. -/
theorem wait_idempotent {T P : Type} [Inhabited T] [FmtV P] {N : Nat} (cb : Outcome T P)
    (s : State T N) (hs : Reachable cb s) (hc : s.f.completed = true) :
    (∀ sched s', run cb s sched = some s' →
      s'.f = s.f ∧ ∀ c, (s'.consumers c).waits = (s.consumers c).waits) ∧
    (∀ c m, (s.consumers c).pc.method = some m →
      ∃ sched s', run cb s sched = some s' ∧ (s'.consumers c).pc = .idle ∧
        (∃ x, (s'.consumers c).log = (s.consumers c).log ++ [x] ∧ x.method = m) ∧
        (s'.consumers c).waits = (s.consumers c).waits) ∧
    (∀ c, s.lock = none → (s.consumers c).pc = .idle → ∀ n,
      run cb s (repeatCalls (callSteps c .Wait 3) n) = some (s.setConsumer c
        { s.consumers c with log := (s.consumers c).log ++ List.replicate n Ret.wait })) ∧
    (∀ c, s.lock = none → (s.consumers c).pc = .idle →
      ∃ v, s.f.result = some v ∧
        run cb s (callSteps c .GetResult 5) = some (s.setConsumer c
          { s.consumers c with log := (s.consumers c).log ++ [Ret.getResult v s.f.err] })) := by
  have h := inv_of_reachable hs
  refine ⟨fun sched s' hr => ?_, fun c m hm => ?_,
    fun c hl hi n => wait_repeated cb c n s hl hi hc, fun c hl hi => ?_⟩
  · obtain ⟨hf, hw, -⟩ := run_of_completed h hc hr
    exact ⟨hf, hw⟩
  · obtain ⟨v, e, hdo, -⟩ := h.prod.of_completed hc
    have hdo' : «do» cb ≠ none := by rw [hdo]; simp
    obtain ⟨sched, s', hr, hi, hx, -⟩ := can_return hdo' c m _ s rfl h hm
    obtain ⟨-, hw, -⟩ := run_of_completed h hc hr
    exact ⟨sched, s', hr, hi, hx, hw c⟩
  · obtain ⟨v, e, -, hr, -⟩ := h.prod.of_completed hc
    exact ⟨v, hr, getResult_solo cb s c hl hi hc hr⟩

/-- Witness of C8 on the completed future of `TestWait`. -/
theorem wait_idempotent_witness :
    (exec testSuccessCb (producerSteps 1)).f.completed = true ∧
    ((exec testSuccessCb (producerSteps 1)).lock = none ∧
      ((exec testSuccessCb (producerSteps 1)).consumers 0).pc = .idle) ∧
    run testSuccessCb (exec testSuccessCb (producerSteps 1))
        (repeatCalls (callSteps (0 : Fin 1) .Wait 3) 2) =
      some ((exec testSuccessCb (producerSteps 1)).setConsumer 0
        { (exec testSuccessCb (producerSteps 1)).consumers 0 with
          log := ((exec testSuccessCb (producerSteps 1)).consumers 0).log ++
            List.replicate 2 Ret.wait }) :=
  ⟨by decide, ⟨by decide, by decide⟩,
    (wait_idempotent testSuccessCb _ (reachable_exec _ _) (by decide)).2.2.1 0
      (by decide) (by decide) 2⟩

/-- C9 (multi-consumer consistency).  For any number `N` of consumers and any
interleaving of their calls with the completion steps: all `GetResult` calls that have
returned, of whatever consumers, gave the same pair, the one `do(cb)` returned; the
computation has been called at most once; and every `GetResult` still in progress can be
brought to its return with that pair. -/
theorem multi_consumer_consistency {T P : Type} [Inhabited T] [FmtV P] {N : Nat}
    (cb : Outcome T P) (s : State T N) (hs : Reachable cb s) :
    (∀ c d v₁ e₁ v₂ e₂, Ret.getResult v₁ e₁ ∈ (s.consumers c).log →
      Ret.getResult v₂ e₂ ∈ (s.consumers d).log →
      (v₁ = v₂ ∧ e₁ = e₂) ∧ «do» cb = some (v₁, e₁)) ∧
    s.runs ≤ 1 ∧
    (∀ c v e, «do» cb = some (v, e) → (s.consumers c).pc.method = some .GetResult →
      ∃ sched s', run cb s sched = some s' ∧ (s'.consumers c).pc = .idle ∧
        (s'.consumers c).log = (s.consumers c).log ++ [Ret.getResult v e] ∧
        s'.runs = 1) := by
  have h := inv_of_reachable hs
  refine ⟨fun c d v₁ e₁ v₂ e₂ m₁ m₂ => ?_, ?_, fun c v e hdo hm => ?_⟩
  · have d₁ := getResult_logged h m₁
    have d₂ := getResult_logged h m₂
    rw [d₁] at d₂
    obtain ⟨rfl, rfl⟩ := Prod.mk.inj (Option.some.inj d₂)
    exact ⟨⟨rfl, rfl⟩, d₁⟩
  · have := h.prod.2
    cases hpc : s.producer <;> simp only [hpc] at this
    case spawned => omega
    case running => omega
    case computed => omega
    case locked => omega
    case wroteResult => obtain ⟨_, _, _, _, _, _⟩ := this; omega
    all_goals (obtain ⟨_, _, _, _, _, _, _⟩ := this; omega)
  · obtain ⟨sched, s', hr, hi, hlog⟩ := getResult_returns hdo h c hm
    refine ⟨sched, s', hr, hi, hlog, ?_⟩
    have h' := inv_run h hr
    have hmem : Ret.getResult v e ∈ (s'.consumers c).log := by rw [hlog]; simp
    obtain ⟨hc', -⟩ := (h'.cons c).2.2 _ hmem
    obtain ⟨_, _, _, _, _, hruns, _⟩ := h'.prod.of_completed hc'
    exact hruns

/-- Witness of C9: three consumers asleep on the future of `TestGetResult_MultiConsumer`
are awakened by one broadcast and all get `("test_result", nil)`. -/
theorem multi_consumer_consistency_witness :
    (Ret.getResult "test_result" none ∈ ((exec testSuccessCb threeSleepers).consumers 0).log ∧
      Ret.getResult "test_result" none ∈ ((exec testSuccessCb threeSleepers).consumers 2).log) ∧
    (("test_result" = "test_result" ∧ (none : error) = none) ∧
      «do» testSuccessCb = some ("test_result", none)) ∧
    (exec testSuccessCb threeSleepers).runs ≤ 1 :=
  have hw := multi_consumer_consistency testSuccessCb _
    (reachable_exec testSuccessCb threeSleepers)
  ⟨⟨by decide, by decide⟩,
    hw.1 0 2 "test_result" none "test_result" none (by decide) (by decide), hw.2.1⟩

/-- C10 (no nil dereference).  In every reachable state `completed = true` implies that
the pointer `result` is not nil; a state with the pointer written and `completed` still
false exists only while the spawned goroutine holds the mutex; no consumer is ever
stopped by a nil dereference; and a consumer standing at `*f.result` in `GetResult` finds
the future completed, the pointer set, and reads through it. -/
theorem no_nil_dereference {T P : Type} [Inhabited T] [FmtV P] {N : Nat}
    (cb : Outcome T P) (s : State T N) (hs : Reachable cb s) :
    (s.f.completed = true → s.f.result ≠ none) ∧
    (s.f.result ≠ none → s.f.completed = false → s.lock = some Tid.producer) ∧
    (∀ c, (s.consumers c).pc ≠ .crashed) ∧
    (∀ c, (s.consumers c).pc = .grDeref →
      s.f.completed = true ∧ ∃ v, s.f.result = some v ∧
        stepConsumer s c = some (s.setConsumer c { s.consumers c with pc := .grErr v })) := by
  have h := inv_of_reachable hs
  refine ⟨fun hc => ?_, fun hr hc => ?_, fun c hk => ?_, fun c hk => ?_⟩
  · obtain ⟨v, e, -, hr, -⟩ := h.prod.of_completed hc
    rw [hr]; simp
  · obtain ⟨p1, p2⟩ := h.prod
    cases hpc : s.producer <;> simp only [hpc] at p1 p2
    case wroteResult => exact p1.2 rfl
    case wroteErr => exact p1.2 rfl
    case wroteCompleted =>
      obtain ⟨_, _, _, _, _, hc', _⟩ := p2
      rw [hc] at hc'; cases hc'
    case broadcasted =>
      obtain ⟨_, _, _, _, _, hc', _⟩ := p2
      rw [hc] at hc'; cases hc'
    case done =>
      obtain ⟨_, _, _, _, _, hc', _⟩ := p2
      rw [hc] at hc'; cases hc'
    case spawned => exact absurd p2.1 hr
    case running => exact absurd p2.1 hr
    case computed => exact absurd p2.2.1 hr
    case locked => exact absurd p2.2.1 hr
  · have := (h.cons c).2.1
    rw [hk] at this
    exact this
  · have hc := (h.cons c).2.1
    rw [hk] at hc
    obtain ⟨v, e, -, hr, -⟩ := h.prod.of_completed hc
    refine ⟨hc, v, hr, ?_⟩
    simp [stepConsumer, hk, hr]

/-- Witness of C10 on `TestGetResult_Panic`: the consumer stands at `*f.result`. -/
theorem no_nil_dereference_witness :
    ((exec testPanicCb
        (producerSteps 1 ++ callSteps (0 : Fin 1) .GetResult 3)).consumers 0).pc = .grDeref ∧
    (exec testPanicCb
        (producerSteps 1 ++ callSteps (0 : Fin 1) .GetResult 3)).f.completed = true ∧
    ∃ v, (exec testPanicCb
        (producerSteps 1 ++ callSteps (0 : Fin 1) .GetResult 3)).f.result = some v ∧
      stepConsumer (exec testPanicCb (producerSteps 1 ++ callSteps (0 : Fin 1) .GetResult 3)) 0
        = some ((exec testPanicCb
            (producerSteps 1 ++ callSteps (0 : Fin 1) .GetResult 3)).setConsumer 0
          { (exec testPanicCb
              (producerSteps 1 ++ callSteps (0 : Fin 1) .GetResult 3)).consumers 0 with
            pc := .grErr v }) :=
  ⟨by decide,
    (no_nil_dereference testPanicCb _ (reachable_exec testPanicCb
      (producerSteps 1 ++ callSteps (0 : Fin 1) .GetResult 3))).2.2.2 0 (by decide)⟩

/-! ## The combining goroutine -/

theorem isIdle_iff {T : Type} (pc : CPc T) : pc.isIdle = true ↔ pc = .idle := by
  cases pc <;> simp [CPc.isIdle]

theorem method_eq_none {T : Type} (pc : CPc T) : pc.method = none ↔ pc = .idle := by
  cases pc <;> simp [CPc.method]

theorem stepProducer_method {T P : Type} [Inhabited T] [FmtV P] {N : Nat}
    {cb : Outcome T P} {s s' : State T N} (hs : stepProducer cb s = some s') (c : Fin N) :
    (s'.consumers c).pc.method = (s.consumers c).pc.method := by
  rcases stepProducer_consumers hs c with h | ⟨g, hg, h⟩
  · rw [h]
  · rw [h, hg]; rfl

/-- Safety of a method call by the combining goroutine: when the call returns, every
future satisfies its invariant, the goroutine is outside every method, the value returned
is one of the method called and is in the log of the future, and no completed struct has
changed. -/
theorem await_spec {T P : Type} [Inhabited T] [FmtV P] {K : Nat}
    (cbs : Fin K → Outcome T P) (i : Fin K) (m : Method) (sched : Sched K) :
    ∀ w : World T K, (∀ j, Inv (cbs j) (w j)) →
      (∀ j, ((w j).consumers 0).pc.method = if j = i then some m else none) →
      ∀ x w' rest, await cbs i w sched = some (x, w', rest) →
        (∀ j, Inv (cbs j) (w' j)) ∧ (∀ j, ((w' j).consumers 0).pc = .idle) ∧
          x.method = m ∧ x ∈ ((w' i).consumers 0).log ∧
          ∀ j, (w j).f.completed = true → (w' j).f = (w j).f := by
  induction sched with
  | nil => intro w _ _ x w' rest h; simp [await] at h
  | cons a sched ih =>
    intro w hinv hst x w' rest h
    cases a with
    | none =>
      simp only [await] at h
      cases hstep : stepConsumer (w i) 0 with
      | none =>
        rw [hstep] at h
        exact ih w hinv hst x w' rest h
      | some s' =>
        rw [hstep] at h
        simp only at h
        have hinv' : ∀ j, Inv (cbs j) (Function.update w i s' j) := by
          intro j
          by_cases hj : j = i
          · subst hj
            rw [Function.update_same]
            exact inv_stepConsumer (hinv j) hstep
          · rw [Function.update_noteq hj]; exact hinv j
        have hmi : ((w i).consumers 0).pc.method = some m := by
          have := hst i
          simpa using this
        have hframe : ∀ j, (Function.update w i s' j).f = (w j).f := by
          intro j
          by_cases hj : j = i
          · subst hj
            rw [Function.update_same]
            exact (stepConsumer_frame hstep).1
          · rw [Function.update_noteq hj]
        by_cases hidle : (s'.consumers 0).pc.isIdle = true
        · rw [if_pos hidle] at h
          have hpc := (isIdle_iff _).1 hidle
          rcases stepConsumer_next hstep with (⟨-, -, hne⟩ | hsame) | ⟨-, x0, hx0, hxm⟩
          · exact absurd hpc hne
          · rw [hsame] at hpc
            rw [hpc] at hmi
            simp [CPc.method] at hmi
          · rw [hx0, List.getLast?_concat] at h
            simp only [Option.map_some', Option.some.injEq, Prod.mk.injEq] at h
            obtain ⟨rfl, rfl, rfl⟩ := h
            refine ⟨hinv', fun j => ?_, ?_, ?_, fun j _ => hframe j⟩
            · by_cases hj : j = i
              · subst hj
                rw [Function.update_same]; exact hpc
              · rw [Function.update_noteq hj]
                have := hst j
                rw [if_neg hj] at this
                exact (method_eq_none _).1 this
            · rw [hmi] at hxm
              exact (Option.some.inj hxm).symm
            · rw [Function.update_same, hx0]; simp
        · rw [if_neg hidle] at h
          have hst' : ∀ j, ((Function.update w i s' j).consumers 0).pc.method
              = if j = i then some m else none := by
            intro j
            by_cases hj : j = i
            · subst hj
              rw [Function.update_same, if_pos rfl]
              rcases stepConsumer_next hstep with (⟨-, hmeth, -⟩ | hsame) | ⟨hpc, -⟩
              · rcases hmeth with hmeth | hi0
                · rw [hmeth]; exact hmi
                · rw [hi0] at hmi; simp [CPc.method] at hmi
              · rw [hsame]; exact hmi
              · exact absurd ((isIdle_iff _).2 hpc) hidle
            · rw [Function.update_noteq hj]; exact hst j
          obtain ⟨r1, r2, r3, r4, r5⟩ := ih _ hinv' hst' x w' rest h
          refine ⟨r1, r2, r3, r4, fun j hc => ?_⟩
          rw [r5 j (by rw [hframe j]; exact hc), hframe j]
    | some j =>
      simp only [await] at h
      cases hstep : stepProducer (cbs j) (w j) with
      | none =>
        rw [hstep] at h
        exact ih w hinv hst x w' rest h
      | some s' =>
        rw [hstep] at h
        simp only at h
        have hinv' : ∀ k, Inv (cbs k) (Function.update w j s' k) := by
          intro k
          by_cases hk : k = j
          · subst hk
            rw [Function.update_same]
            exact inv_stepProducer (hinv k) hstep
          · rw [Function.update_noteq hk]; exact hinv k
        have hst' : ∀ k, ((Function.update w j s' k).consumers 0).pc.method
            = if k = i then some m else none := by
          intro k
          by_cases hk : k = j
          · subst hk
            rw [Function.update_same, stepProducer_method hstep]; exact hst k
          · rw [Function.update_noteq hk]; exact hst k
        obtain ⟨r1, r2, r3, r4, r5⟩ := ih _ hinv' hst' x w' rest h
        refine ⟨r1, r2, r3, r4, fun k hc => ?_⟩
        by_cases hk : k = j
        · subst hk
          have hf : s'.f = (w k).f :=
            step_f_of_completed (l := Label.producer) (hinv k) hc hstep
          have := r5 k (by rw [Function.update_same, hf]; exact hc)
          rw [this, Function.update_same, hf]
        · have := r5 k (by rw [Function.update_noteq hk]; exact hc)
          rw [this, Function.update_noteq hk]

theorem entry_method {T : Type} (m : Method) : (m.entry : CPc T).method = some m := by
  cases m <;> rfl

/-- Safety of `invoke`, from a world in which the combining goroutine is outside every
method. -/
theorem invoke_spec {T P : Type} [Inhabited T] [FmtV P] {K : Nat}
    {cbs : Fin K → Outcome T P} {i : Fin K} {m : Method} {sched : Sched K} {w : World T K}
    (hinv : ∀ j, Inv (cbs j) (w j)) (hidle : ∀ j, ((w j).consumers 0).pc = .idle)
    {x : Ret T} {w' : World T K} {rest : Sched K}
    (h : invoke cbs i m w sched = some (x, w', rest)) :
    (∀ j, Inv (cbs j) (w' j)) ∧ (∀ j, ((w' j).consumers 0).pc = .idle) ∧
      x.method = m ∧ x ∈ ((w' i).consumers 0).log ∧
      ∀ j, (w j).f.completed = true → (w' j).f = (w j).f := by
  unfold invoke at h
  cases hstep : step (cbs i) (w i) (.call 0 m) with
  | none => rw [hstep] at h; cases h
  | some s' =>
    rw [hstep] at h
    simp only at h
    have hs' : s' = (w i).setConsumer 0 { (w i).consumers 0 with pc := m.entry } := by
      simp only [step, hidle i, Option.some.injEq] at hstep
      exact hstep.symm
    have hinv' : ∀ j, Inv (cbs j) (Function.update w i s' j) := by
      intro j
      by_cases hj : j = i
      · subst hj
        rw [Function.update_same]
        exact inv_step (hinv j) hstep
      · rw [Function.update_noteq hj]; exact hinv j
    have hst' : ∀ j, ((Function.update w i s' j).consumers 0).pc.method
        = if j = i then some m else none := by
      intro j
      by_cases hj : j = i
      · subst hj
        rw [Function.update_same, if_pos rfl, hs', setConsumer_same]
        exact entry_method m
      · rw [Function.update_noteq hj, if_neg hj]
        exact (method_eq_none _).2 (hidle j)
    obtain ⟨r1, r2, r3, r4, r5⟩ := await_spec cbs i m sched _ hinv' hst' x w' rest h
    refine ⟨r1, r2, r3, r4, fun j hc => ?_⟩
    have hf : (Function.update w i s' j).f = (w j).f := by
      by_cases hj : j = i
      · subst hj
        rw [Function.update_same, hs']; rfl
      · rw [Function.update_noteq hj]
    rw [r5 j (by rw [hf]; exact hc), hf]

/-- Safety of `GetResult` as called by the combining goroutine: what it returns is the
pair `do(cb)` returned. -/
theorem GetResult_spec {T P : Type} [Inhabited T] [FmtV P] {K : Nat}
    {cbs : Fin K → Outcome T P} {i : Fin K} {sched : Sched K} {w : World T K}
    (hinv : ∀ j, Inv (cbs j) (w j)) (hidle : ∀ j, ((w j).consumers 0).pc = .idle)
    {v : T} {e : error} {w' : World T K} {rest : Sched K}
    (h : GetResult cbs i w sched = some ((v, e), w', rest)) :
    (∀ j, Inv (cbs j) (w' j)) ∧ (∀ j, ((w' j).consumers 0).pc = .idle) ∧
      «do» (cbs i) = some (v, e) ∧
      ∀ j, (w j).f.completed = true → (w' j).f = (w j).f := by
  unfold GetResult at h
  cases hi : invoke cbs i .GetResult w sched with
  | none => rw [hi] at h; cases h
  | some r =>
    obtain ⟨x, w1, rest1⟩ := r
    rw [hi] at h
    cases x with
    | getResult v1 e1 =>
      simp only [Option.some.injEq, Prod.mk.injEq] at h
      obtain ⟨⟨rfl, rfl⟩, rfl, rfl⟩ := h
      obtain ⟨r1, r2, -, r4, r5⟩ := invoke_spec hinv hidle hi
      exact ⟨r1, r2, getResult_logged (r1 i) r4, r5⟩
    | isCompleted b => cases h
    | wait => cases h

/-- Safety of `Wait` as called by the combining goroutine: when it returns the future is
completed. -/
theorem Wait_spec {T P : Type} [Inhabited T] [FmtV P] {K : Nat}
    {cbs : Fin K → Outcome T P} {i : Fin K} {sched : Sched K} {w : World T K}
    (hinv : ∀ j, Inv (cbs j) (w j)) (hidle : ∀ j, ((w j).consumers 0).pc = .idle)
    {w' : World T K} {rest : Sched K} (h : Wait cbs i w sched = some (w', rest)) :
    (∀ j, Inv (cbs j) (w' j)) ∧ (∀ j, ((w' j).consumers 0).pc = .idle) ∧
      (w' i).f.completed = true ∧
      ∀ j, (w j).f.completed = true → (w' j).f = (w j).f := by
  unfold Wait at h
  cases hi : invoke cbs i .Wait w sched with
  | none => rw [hi] at h; cases h
  | some r =>
    obtain ⟨x, w1, rest1⟩ := r
    rw [hi] at h
    cases x with
    | wait =>
      simp only [Option.some.injEq, Prod.mk.injEq] at h
      obtain ⟨rfl, rfl⟩ := h
      obtain ⟨r1, r2, -, r4, r5⟩ := invoke_spec hinv hidle hi
      exact ⟨r1, r2, ((r1 i).cons 0).2.2 _ r4, r5⟩
    | isCompleted b => cases h
    | getResult v e => cases h

/-- Safety of `WaitAll`. -/
theorem WaitAll_spec {T P : Type} [Inhabited T] [FmtV P] {K : Nat}
    (cbs : Fin K → Outcome T P) (futures : List (Fin K)) :
    ∀ (w : World T K) (sched : Sched K), (∀ j, Inv (cbs j) (w j)) →
      (∀ j, ((w j).consumers 0).pc = .idle) →
      ∀ w' rest, WaitAll cbs futures w sched = some (w', rest) →
        (∀ j, Inv (cbs j) (w' j)) ∧ (∀ j, ((w' j).consumers 0).pc = .idle) ∧
          (∀ f ∈ futures, (w' f).f.completed = true) ∧
          ∀ j, (w j).f.completed = true → (w' j).f = (w j).f := by
  induction futures with
  | nil =>
    intro w sched hinv hidle w' rest h
    simp only [WaitAll, Option.some.injEq, Prod.mk.injEq] at h
    obtain ⟨rfl, rfl⟩ := h
    exact ⟨hinv, hidle, by simp, fun _ _ => rfl⟩
  | cons f futures ih =>
    intro w sched hinv hidle w' rest h
    simp only [WaitAll] at h
    cases hw : Wait cbs f w sched with
    | none => rw [hw] at h; cases h
    | some r =>
      obtain ⟨w1, rest1⟩ := r
      rw [hw] at h
      simp only at h
      obtain ⟨a1, a2, a3, a4⟩ := Wait_spec hinv hidle hw
      obtain ⟨b1, b2, b3, b4⟩ := ih w1 rest1 a1 a2 w' rest h
      refine ⟨b1, b2, fun g hg => ?_, fun j hc => ?_⟩
      · rcases List.mem_cons.1 hg with rfl | hg
        · rw [b4 g a3]; exact a3
        · exact b3 g hg
      · rw [b4 j (by rw [a4 j hc]; exact hc), a4 j hc]

/-- Safety of the loop of `WhenAll`: the slots from `i` on receive, in order, the pairs
`do` returned for the futures visited; the other slots are left alone. -/
theorem whenAllLoop_spec {T P : Type} [Inhabited T] [FmtV P] {K : Nat}
    (cbs : Fin K → Outcome T P) (futures : List (Fin K)) :
    ∀ (i : Nat) (result : List (Result T)) (w : World T K) (sched : Sched K),
      (∀ j, Inv (cbs j) (w j)) → (∀ j, ((w j).consumers 0).pc = .idle) →
      i + futures.length ≤ result.length →
      ∀ res w' rest, whenAllLoop cbs futures i result w sched = some (res, w', rest) →
        (∀ j, Inv (cbs j) (w' j)) ∧ (∀ j, ((w' j).consumers 0).pc = .idle) ∧
          res.length = result.length ∧
          (∀ k, k < i → res[k]? = result[k]?) ∧
          (∀ k f, futures[k]? = some f →
            ∃ v e, «do» (cbs f) = some (v, e) ∧ res[i + k]? = some { Value := v, Err := e }) ∧
          ∀ j, (w j).f.completed = true → (w' j).f = (w j).f := by
  induction futures with
  | nil =>
    intro i result w sched hinv hidle _ res w' rest h
    simp only [whenAllLoop, Option.some.injEq, Prod.mk.injEq] at h
    obtain ⟨rfl, rfl, rfl⟩ := h
    exact ⟨hinv, hidle, rfl, fun _ _ => rfl, by simp, fun _ _ => rfl⟩
  | cons f futures ih =>
    intro i result w sched hinv hidle hlen res w' rest h
    simp only [whenAllLoop] at h
    cases hg : GetResult cbs f w sched with
    | none => rw [hg] at h; cases h
    | some r =>
      obtain ⟨⟨v, err⟩, w1, rest1⟩ := r
      rw [hg] at h
      simp only at h
      obtain ⟨a1, a2, a3, a4⟩ := GetResult_spec hinv hidle hg
      simp only [List.length_cons] at hlen
      obtain ⟨b1, b2, b3, b4, b5, b6⟩ :=
        ih (i + 1) _ w1 rest1 a1 a2 (by rw [List.length_set]; omega) res w' rest h
      rw [List.length_set] at b3
      refine ⟨b1, b2, b3, fun k hk => ?_, fun k g hkg => ?_, fun j hc => ?_⟩
      · rw [b4 k (by omega), List.getElem?_set_ne (by omega)]
      · cases k with
        | zero =>
          simp only [List.getElem?_cons_zero, Option.some.injEq] at hkg
          subst hkg
          refine ⟨v, err, a3, ?_⟩
          rw [Nat.add_zero, b4 i (by omega), List.getElem?_set_self (by omega)]
        | succ k =>
          simp only [List.getElem?_cons_succ] at hkg
          obtain ⟨v', e', hd, hr⟩ := b5 k g hkg
          refine ⟨v', e', hd, ?_⟩
          have : i + (k + 1) = i + 1 + k := by omega
          rw [this]; exact hr
      · rw [b6 j (by rw [a4 j hc]; exact hc), a4 j hc]

/-! ## The combining goroutine can always finish -/

theorem await_append {T P : Type} [Inhabited T] [FmtV P] {K : Nat}
    (cbs : Fin K → Outcome T P) (i : Fin K) (sched tail : Sched K) :
    ∀ (w : World T K) x w' rest, await cbs i w sched = some (x, w', rest) →
      await cbs i w (sched ++ tail) = some (x, w', rest ++ tail) := by
  induction sched with
  | nil => intro w x w' rest h; simp [await] at h
  | cons a sched ih =>
    intro w x w' rest h
    cases a with
    | none =>
      rw [List.cons_append]
      simp only [await] at h ⊢
      cases hstep : stepConsumer (w i) 0 with
      | none =>
        rw [hstep] at h
        exact ih w x w' rest h
      | some s' =>
        rw [hstep] at h
        simp only at h ⊢
        by_cases hidle : (s'.consumers 0).pc.isIdle = true
        · rw [if_pos hidle] at h ⊢
          cases hlast : (s'.consumers 0).log.getLast? with
          | none => rw [hlast] at h; cases h
          | some y =>
            rw [hlast] at h
            simp only [Option.map_some', Option.some.injEq, Prod.mk.injEq] at h ⊢
            obtain ⟨rfl, rfl, rfl⟩ := h
            exact ⟨rfl, rfl, rfl⟩
        · rw [if_neg hidle] at h ⊢
          exact ih _ x w' rest h
    | some j =>
      rw [List.cons_append]
      simp only [await] at h ⊢
      cases hstep : stepProducer (cbs j) (w j) with
      | none =>
        rw [hstep] at h
        exact ih w x w' rest h
      | some s' =>
        rw [hstep] at h
        exact ih _ x w' rest h

/-- A run of future `i` alone that brings the combining goroutine back to idle is
followed by `await` on the corresponding world schedule. -/
theorem await_of_run {T P : Type} [Inhabited T] [FmtV P] {K : Nat}
    (cbs : Fin K → Outcome T P) (i : Fin K) (sched : List (Label 1)) :
    ∀ (w : World T K) (s' : State T 1), ((w i).consumers 0).pc ≠ .idle →
      (∀ l ∈ sched, l.isCall = false) → run (cbs i) (w i) sched = some s' →
      (s'.consumers 0).pc = .idle →
      ∃ sched' x w', await cbs i w sched' = some (x, w', []) := by
  induction sched with
  | nil =>
    intro w s' hne _ hr hi
    simp only [run, Option.some.injEq] at hr
    subst hr
    exact absurd hi hne
  | cons l sched ih =>
    intro w s' hne hnc hr hi
    simp only [run] at hr
    cases hstep : step (cbs i) (w i) l with
    | none => rw [hstep] at hr; cases hr
    | some s1 =>
      rw [hstep] at hr
      simp only [Option.some_bind] at hr
      have hnc' : ∀ l' ∈ sched, l'.isCall = false :=
        fun l' hl' => hnc l' (List.mem_cons_of_mem _ hl')
      have hr' : run (cbs i) (Function.update w i s1 i) sched = some s' := by
        rw [Function.update_same]; exact hr
      cases l with
      | call c m =>
        have := hnc _ (List.mem_cons_self _ _)
        simp [Label.isCall] at this
      | producer =>
        have hp : stepProducer (cbs i) (w i) = some s1 := hstep
        have hne' : ((Function.update w i s1 i).consumers 0).pc ≠ .idle := by
          rw [Function.update_same]
          intro hidle
          have h1 := stepProducer_method hp 0
          rw [hidle] at h1
          exact hne ((method_eq_none _).1 h1.symm)
        obtain ⟨sched', x, w', ha⟩ := ih _ s' hne' hnc' hr' hi
        exact ⟨some i :: sched', x, w', by simp only [await, hp]; exact ha⟩
      | consumer c =>
        have hc0 : c = 0 := Subsingleton.elim _ _
        subst hc0
        have hp : stepConsumer (w i) 0 = some s1 := hstep
        by_cases hidle : (s1.consumers 0).pc.isIdle = true
        · rcases stepConsumer_next hp with (⟨-, -, hn⟩ | hsame) | ⟨-, x, hx, -⟩
          · exact absurd ((isIdle_iff _).1 hidle) hn
          · rw [hsame] at hidle
            exact absurd ((isIdle_iff _).1 hidle) hne
          · refine ⟨[none], x, Function.update w i s1, ?_⟩
            simp only [await, hp, if_pos hidle, hx, List.getLast?_concat, Option.map_some']
        · have hne' : ((Function.update w i s1 i).consumers 0).pc ≠ .idle := by
            rw [Function.update_same]
            exact fun h => hidle ((isIdle_iff _).2 h)
          obtain ⟨sched', x, w', ha⟩ := ih _ s' hne' hnc' hr' hi
          exact ⟨none :: sched', x, w', by simp only [await, hp, if_neg hidle]; exact ha⟩

theorem invoke_append {T P : Type} [Inhabited T] [FmtV P] {K : Nat}
    {cbs : Fin K → Outcome T P} {i : Fin K} {m : Method} {w : World T K}
    {sched : Sched K} (tail : Sched K) {x : Ret T} {w' : World T K} {rest : Sched K}
    (h : invoke cbs i m w sched = some (x, w', rest)) :
    invoke cbs i m w (sched ++ tail) = some (x, w', rest ++ tail) := by
  unfold invoke at h ⊢
  cases hstep : step (cbs i) (w i) (.call 0 m) with
  | none => rw [hstep] at h; cases h
  | some s' =>
    rw [hstep] at h
    exact await_append cbs i sched tail _ x w' rest h

theorem Wait_append {T P : Type} [Inhabited T] [FmtV P] {K : Nat}
    {cbs : Fin K → Outcome T P} {i : Fin K} {w : World T K} {sched : Sched K}
    (tail : Sched K) {w' : World T K} {rest : Sched K}
    (h : Wait cbs i w sched = some (w', rest)) :
    Wait cbs i w (sched ++ tail) = some (w', rest ++ tail) := by
  unfold Wait at h ⊢
  cases hi : invoke cbs i .Wait w sched with
  | none => rw [hi] at h; cases h
  | some r =>
    obtain ⟨x, w1, rest1⟩ := r
    rw [hi] at h
    rw [invoke_append tail hi]
    cases x with
    | wait =>
      simp only [Option.some.injEq, Prod.mk.injEq] at h ⊢
      exact ⟨h.1, by rw [h.2]⟩
    | isCompleted b => cases h
    | getResult v e => cases h

theorem GetResult_append {T P : Type} [Inhabited T] [FmtV P] {K : Nat}
    {cbs : Fin K → Outcome T P} {i : Fin K} {w : World T K} {sched : Sched K}
    (tail : Sched K) {r : T × error} {w' : World T K} {rest : Sched K}
    (h : GetResult cbs i w sched = some (r, w', rest)) :
    GetResult cbs i w (sched ++ tail) = some (r, w', rest ++ tail) := by
  unfold GetResult at h ⊢
  cases hi : invoke cbs i .GetResult w sched with
  | none => rw [hi] at h; cases h
  | some q =>
    obtain ⟨x, w1, rest1⟩ := q
    rw [hi] at h
    rw [invoke_append tail hi]
    cases x with
    | getResult v e =>
      simp only [Option.some.injEq, Prod.mk.injEq] at h ⊢
      exact ⟨h.1, h.2.1, by rw [h.2.2]⟩
    | isCompleted b => cases h
    | wait => cases h

/-- No schedule can keep a call of the combining goroutine from returning: whatever has
been scheduled so far, the schedule can be continued so that the call returns. -/
theorem await_extend {T P : Type} [Inhabited T] [FmtV P] {K : Nat}
    (cbs : Fin K → Outcome T P) (i : Fin K) (m : Method) (hdo : «do» (cbs i) ≠ none)
    (sched : Sched K) :
    ∀ w : World T K, (∀ j, Inv (cbs j) (w j)) → ((w i).consumers 0).pc.method = some m →
      ∃ ext x w' rest, await cbs i w (sched ++ ext) = some (x, w', rest) := by
  induction sched with
  | nil =>
    intro w hinv hm
    obtain ⟨σ, s', hr, hi, -, hnc⟩ := can_return hdo 0 m _ _ rfl (hinv i) hm
    have hne : ((w i).consumers 0).pc ≠ .idle := by
      intro h
      rw [h] at hm
      simp [CPc.method] at hm
    obtain ⟨ext, x, w', ha⟩ := await_of_run cbs i σ w s' hne hnc hr hi
    exact ⟨ext, x, w', [], by simpa using ha⟩
  | cons a sched ih =>
    intro w hinv hm
    cases a with
    | none =>
      cases hstep : stepConsumer (w i) 0 with
      | none =>
        obtain ⟨ext, x, w', rest, ha⟩ := ih w hinv hm
        exact ⟨ext, x, w', rest, by rw [List.cons_append]; simp only [await, hstep]; exact ha⟩
      | some s' =>
        have hinv' : ∀ j, Inv (cbs j) (Function.update w i s' j) := by
          intro j
          by_cases hj : j = i
          · subst hj
            rw [Function.update_same]
            exact inv_stepConsumer (hinv j) hstep
          · rw [Function.update_noteq hj]; exact hinv j
        by_cases hidle : (s'.consumers 0).pc.isIdle = true
        · rcases stepConsumer_next hstep with (⟨-, -, hn⟩ | hsame) | ⟨-, x, hx, -⟩
          · exact absurd ((isIdle_iff _).1 hidle) hn
          · have hpc : (s'.consumers 0).pc = .idle := (isIdle_iff _).1 hidle
            rw [hsame] at hpc
            rw [hpc] at hm
            simp [CPc.method] at hm
          · refine ⟨[], x, Function.update w i s', sched ++ [], ?_⟩
            rw [List.cons_append]
            simp only [await, hstep, if_pos hidle, hx, List.getLast?_concat, Option.map_some']
        · have hm' : ((Function.update w i s' i).consumers 0).pc.method = some m := by
            rw [Function.update_same]
            rcases stepConsumer_next hstep with (⟨-, hmeth, -⟩ | hsame) | ⟨hpc, -⟩
            · rcases hmeth with hmeth | hi0
              · rw [hmeth]; exact hm
              · rw [hi0] at hm; simp [CPc.method] at hm
            · rw [hsame]; exact hm
            · exact absurd ((isIdle_iff _).2 hpc) hidle
          obtain ⟨ext, x, w', rest, ha⟩ := ih _ hinv' hm'
          exact ⟨ext, x, w', rest, by
            rw [List.cons_append]; simp only [await, hstep, if_neg hidle]; exact ha⟩
    | some j =>
      cases hstep : stepProducer (cbs j) (w j) with
      | none =>
        obtain ⟨ext, x, w', rest, ha⟩ := ih w hinv hm
        exact ⟨ext, x, w', rest, by rw [List.cons_append]; simp only [await, hstep]; exact ha⟩
      | some s' =>
        have hinv' : ∀ k, Inv (cbs k) (Function.update w j s' k) := by
          intro k
          by_cases hk : k = j
          · subst hk
            rw [Function.update_same]
            exact inv_stepProducer (hinv k) hstep
          · rw [Function.update_noteq hk]; exact hinv k
        have hm' : ((Function.update w j s' i).consumers 0).pc.method = some m := by
          by_cases hk : i = j
          · subst hk
            rw [Function.update_same, stepProducer_method hstep]; exact hm
          · rw [Function.update_noteq hk]; exact hm
        obtain ⟨ext, x, w', rest, ha⟩ := ih _ hinv' hm'
        exact ⟨ext, x, w', rest, by rw [List.cons_append]; simp only [await, hstep]; exact ha⟩

theorem invoke_extend {T P : Type} [Inhabited T] [FmtV P] {K : Nat}
    {cbs : Fin K → Outcome T P} {w : World T K} (hinv : ∀ j, Inv (cbs j) (w j))
    (hidle : ∀ j, ((w j).consumers 0).pc = .idle) (i : Fin K) (m : Method)
    (hdo : «do» (cbs i) ≠ none) (sched : Sched K) :
    ∃ ext x w' rest, invoke cbs i m w (sched ++ ext) = some (x, w', rest) := by
  have hstep : step (cbs i) (w i) (.call 0 m)
      = some ((w i).setConsumer 0 { (w i).consumers 0 with pc := m.entry }) := by
    simp only [step, hidle i]
  have hinv' : ∀ j, Inv (cbs j) (Function.update w i ((w i).setConsumer 0
      { (w i).consumers 0 with pc := m.entry }) j) := by
    intro j
    by_cases hj : j = i
    · subst hj
      rw [Function.update_same]
      exact inv_step (hinv j) hstep
    · rw [Function.update_noteq hj]; exact hinv j
  obtain ⟨ext, x, w', rest, ha⟩ := await_extend cbs i m hdo sched _ hinv'
    (by rw [Function.update_same, setConsumer_same]; exact entry_method m)
  exact ⟨ext, x, w', rest, by simp only [invoke, hstep]; exact ha⟩

theorem Wait_extend {T P : Type} [Inhabited T] [FmtV P] {K : Nat}
    {cbs : Fin K → Outcome T P} {w : World T K} (hinv : ∀ j, Inv (cbs j) (w j))
    (hidle : ∀ j, ((w j).consumers 0).pc = .idle) (i : Fin K) (hdo : «do» (cbs i) ≠ none)
    (sched : Sched K) :
    ∃ ext w' rest, Wait cbs i w (sched ++ ext) = some (w', rest) := by
  obtain ⟨ext, x, w', rest, hi⟩ := invoke_extend hinv hidle i .Wait hdo sched
  obtain ⟨-, -, hm, -⟩ := invoke_spec hinv hidle hi
  cases x with
  | wait => exact ⟨ext, w', rest, by simp only [Wait, hi]⟩
  | isCompleted b => simp [Ret.method] at hm
  | getResult v e => simp [Ret.method] at hm

theorem GetResult_extend {T P : Type} [Inhabited T] [FmtV P] {K : Nat}
    {cbs : Fin K → Outcome T P} {w : World T K} (hinv : ∀ j, Inv (cbs j) (w j))
    (hidle : ∀ j, ((w j).consumers 0).pc = .idle) (i : Fin K) (hdo : «do» (cbs i) ≠ none)
    (sched : Sched K) :
    ∃ ext r w' rest, GetResult cbs i w (sched ++ ext) = some (r, w', rest) := by
  obtain ⟨ext, x, w', rest, hi⟩ := invoke_extend hinv hidle i .GetResult hdo sched
  obtain ⟨-, -, hm, -⟩ := invoke_spec hinv hidle hi
  cases x with
  | getResult v e => exact ⟨ext, (v, e), w', rest, by simp only [GetResult, hi]⟩
  | isCompleted b => simp [Ret.method] at hm
  | wait => simp [Ret.method] at hm

/-- No schedule can keep `WaitAll` from returning when the computations of its futures
return or panic: any schedule can be continued so that `WaitAll` returns. -/
theorem WaitAll_extend {T P : Type} [Inhabited T] [FmtV P] {K : Nat}
    (cbs : Fin K → Outcome T P) (futures : List (Fin K)) :
    ∀ (w : World T K) (sched : Sched K), (∀ j, Inv (cbs j) (w j)) →
      (∀ j, ((w j).consumers 0).pc = .idle) → (∀ f ∈ futures, «do» (cbs f) ≠ none) →
      ∃ ext w' rest, WaitAll cbs futures w (sched ++ ext) = some (w', rest) := by
  induction futures with
  | nil => intro w sched _ _ _; exact ⟨[], w, sched ++ [], rfl⟩
  | cons f futures ih =>
    intro w sched hinv hidle hdo
    obtain ⟨e₁, w1, rest1, h1⟩ :=
      Wait_extend hinv hidle f (hdo f (List.mem_cons_self _ _)) sched
    obtain ⟨a1, a2, -, -⟩ := Wait_spec hinv hidle h1
    obtain ⟨e₂, w2, rest2, h2⟩ :=
      ih w1 rest1 a1 a2 fun g hg => hdo g (List.mem_cons_of_mem _ hg)
    refine ⟨e₁ ++ e₂, w2, rest2, ?_⟩
    rw [← List.append_assoc]
    simp only [WaitAll, Wait_append e₂ h1]
    exact h2

/-- The same for the loop of `WhenAll`. -/
theorem whenAllLoop_extend {T P : Type} [Inhabited T] [FmtV P] {K : Nat}
    (cbs : Fin K → Outcome T P) (futures : List (Fin K)) :
    ∀ (i : Nat) (result : List (Result T)) (w : World T K) (sched : Sched K),
      (∀ j, Inv (cbs j) (w j)) → (∀ j, ((w j).consumers 0).pc = .idle) →
      (∀ f ∈ futures, «do» (cbs f) ≠ none) →
      ∃ ext res w' rest,
        whenAllLoop cbs futures i result w (sched ++ ext) = some (res, w', rest) := by
  induction futures with
  | nil => intro i result w sched _ _ _; exact ⟨[], result, w, sched ++ [], rfl⟩
  | cons f futures ih =>
    intro i result w sched hinv hidle hdo
    obtain ⟨e₁, ⟨v, err⟩, w1, rest1, h1⟩ :=
      GetResult_extend hinv hidle f (hdo f (List.mem_cons_self _ _)) sched
    obtain ⟨a1, a2, -, -⟩ := GetResult_spec hinv hidle h1
    obtain ⟨e₂, res, w2, rest2, h2⟩ :=
      ih (i + 1) (result.set i { Value := v, Err := err }) w1 rest1 a1 a2
        fun g hg => hdo g (List.mem_cons_of_mem _ hg)
    refine ⟨e₁ ++ e₂, res, w2, rest2, ?_⟩
    rw [← List.append_assoc]
    simp only [whenAllLoop, GetResult_append e₂ h1]
    exact h2

theorem stepProducer_completed {T P : Type} [Inhabited T] [FmtV P] {N : Nat}
    {cb : Outcome T P} {s s' : State T N} (hs : stepProducer cb s = some s')
    (hc : s.f.completed = true) : s'.f.completed = true := by
  unfold stepProducer at hs
  cases hpc : s.producer <;> simp only [hpc] at hs
  all_goals try split at hs
  all_goals first
    | (cases hs; done)
    | (cases hs; exact hc)
    | (cases hs; rfl)

/-- A call by the combining goroutine on a completed future does not return `false`
from `IsCompleted`. -/
theorem await_isCompleted {T P : Type} [Inhabited T] [FmtV P] {K : Nat}
    (cbs : Fin K → Outcome T P) (i : Fin K) (sched : Sched K) :
    ∀ w : World T K, (w i).f.completed = true →
      ((w i).consumers 0).pc ≠ .icUnlock false →
      ∀ x w' rest, await cbs i w sched = some (x, w', rest) → x ≠ .isCompleted false := by
  induction sched with
  | nil => intro w _ _ x w' rest h; simp [await] at h
  | cons a sched ih =>
    intro w hc hn x w' rest h
    cases a with
    | none =>
      simp only [await] at h
      cases hstep : stepConsumer (w i) 0 with
      | none =>
        rw [hstep] at h
        exact ih w hc hn x w' rest h
      | some s' =>
        rw [hstep] at h
        simp only at h
        obtain ⟨hn', new, hlog, hnew⟩ := stepConsumer_isCompleted hc hstep hn
        by_cases hidle : (s'.consumers 0).pc.isIdle = true
        · rw [if_pos hidle] at h
          rcases stepConsumer_next hstep with (⟨hl, -, hne⟩ | hsame) | ⟨-, x0, hx0, -⟩
          · exact absurd ((isIdle_iff _).1 hidle) hne
          · have hpc : (s'.consumers 0).pc = .idle := (isIdle_iff _).1 hidle
            rw [hsame] at hpc
            simp [stepConsumer, hpc] at hstep
          · rw [hx0, List.getLast?_concat] at h
            simp only [Option.map_some', Option.some.injEq, Prod.mk.injEq] at h
            obtain ⟨rfl, -, -⟩ := h
            rw [hx0] at hlog
            have := List.append_cancel_left hlog
            rw [← this] at hnew
            intro hx
            rw [hx] at hnew
            simp at hnew
        · rw [if_neg hidle] at h
          refine ih _ ?_ ?_ x w' rest h
          · rw [Function.update_same, (stepConsumer_frame hstep).1]; exact hc
          · rw [Function.update_same]; exact hn'
    | some j =>
      simp only [await] at h
      cases hstep : stepProducer (cbs j) (w j) with
      | none =>
        rw [hstep] at h
        exact ih w hc hn x w' rest h
      | some s' =>
        rw [hstep] at h
        simp only at h
        refine ih _ ?_ ?_ x w' rest h
        · by_cases hj : i = j
          · subst hj
            rw [Function.update_same]
            exact stepProducer_completed hstep hc
          · rw [Function.update_noteq hj]; exact hc
        · by_cases hj : i = j
          · subst hj
            rw [Function.update_same]
            rcases stepProducer_consumers hstep 0 with h1 | ⟨g, -, h1⟩
            · rw [h1]; exact hn
            · rw [h1]; simp
          · rw [Function.update_noteq hj]; exact hn

/-- The method `IsCompleted` called by the combining goroutine on a completed future returns
`true`. -/
theorem IsCompleted_spec {T P : Type} [Inhabited T] [FmtV P] {K : Nat}
    {cbs : Fin K → Outcome T P} {i : Fin K} {sched : Sched K} {w : World T K}
    (hidle : ((w i).consumers 0).pc = .idle) (hc : (w i).f.completed = true)
    {b : Bool} {w' : World T K} {rest : Sched K}
    (h : IsCompleted cbs i w sched = some (b, w', rest)) : b = true := by
  unfold IsCompleted invoke at h
  simp only [step, hidle] at h
  cases ha : await cbs i (Function.update w i ((w i).setConsumer 0
      { (w i).consumers 0 with pc := Method.entry .IsCompleted })) sched with
  | none => rw [ha] at h; cases h
  | some r =>
    obtain ⟨x, w1, rest1⟩ := r
    rw [ha] at h
    have hx := await_isCompleted cbs i sched _
      (by rw [Function.update_same]; exact hc)
      (by rw [Function.update_same, setConsumer_same]; simp [Method.entry]) x w1 rest1 ha
    cases x with
    | isCompleted b' =>
      simp only [Option.some.injEq, Prod.mk.injEq] at h
      obtain ⟨rfl, -, -⟩ := h
      cases b' with
      | true => rfl
      | false => exact absurd rfl hx
    | getResult v e => cases h
    | wait => cases h

theorem eq_some_getD {α : Type} (o : Option α) (d : α) (h : o.isSome = true) :
    o = some (o.getD d) := by
  cases o with
  | none => cases h
  | some a => rfl

/-! ## The claims on the combinators -/

/-- C4 (`WhenAll` keeps the input order).  Take futures made by `Run`, in any state they
can reach, with the caller outside every method.  Whatever the schedule, when
`WhenAll(fs...)` returns, the slice has the length of `fs` and its `i`-th element is
`Result` of the pair `(v, e)` that `do` returned for the computation of `fs[i]`, which is
also the pair every `fs[i].GetResult()` returns: the order is that of the input whatever
the completion order, and an element depends on the outcome of its own future only.  When
every computation returns or panics, every schedule can be continued so that `WhenAll`
returns.  For the empty sequence the result is the empty slice, at once. -/
theorem WhenAll_input_order {T P : Type} [Inhabited T] [FmtV P] {K : Nat}
    (cbs : Fin K → Outcome T P) (futures : List (Fin K)) (w : World T K)
    (hw : ∀ j, Reachable (cbs j) (w j)) (hidle : ∀ j, ((w j).consumers 0).pc = .idle) :
    (∀ sched res w' rest, WhenAll cbs futures w sched = some (res, w', rest) →
      res.length = futures.length ∧
      ∀ (i : Nat) (f : Fin K), futures[i]? = some f →
        ∃ v e, «do» (cbs f) = some (v, e) ∧ res[i]? = some (Result.mk v e) ∧
          ∀ sched₂ r w₂ rest₂, GetResult cbs f w' sched₂ = some (r, w₂, rest₂) → r = (v, e)) ∧
    ((∀ f ∈ futures, «do» (cbs f) ≠ none) →
      ∀ sched, ∃ ext res w' rest,
        WhenAll cbs futures w (sched ++ ext) = some (res, w', rest)) ∧
    (∀ sched, WhenAll cbs [] w sched = some ([], w, sched)) := by
  have hinv : ∀ j, Inv (cbs j) (w j) := fun j => inv_of_reachable (hw j)
  refine ⟨fun sched res w' rest h => ?_, fun hdo sched => ?_, fun sched => rfl⟩
  · obtain ⟨a1, a2, a3, -, a5, -⟩ := whenAllLoop_spec cbs futures 0 _ w sched hinv hidle
      (by simp) res w' rest h
    refine ⟨by simpa using a3, fun i f hf => ?_⟩
    obtain ⟨v, e, hdo, hr⟩ := a5 i f hf
    refine ⟨v, e, hdo, by simpa using hr, fun sched₂ r w₂ rest₂ hg => ?_⟩
    obtain ⟨v', e'⟩ := r
    obtain ⟨-, -, hdo', -⟩ := GetResult_spec a1 a2 hg
    rw [hdo] at hdo'
    exact (Option.some.inj hdo').symm
  · exact whenAllLoop_extend cbs futures 0 _ w sched hinv hidle hdo

/-- Witness of C4: futures 0, 1, 2 hold a success, a panic and a failure and complete in
the order 2, 0, 1; the slice `WhenAll` returns is in the order 0, 1, 2. -/
theorem WhenAll_input_order_witness :
    (WhenAll mixedCbs [0, 1, 2] (RunAll 3) testWhenAllSched).isSome = true ∧
    whenAllDemo.1 = [{ Value := 10, Err := none },
      { Value := 0, Err := some (.errorf "panic occured: test panic") },
      { Value := 12, Err := some (.custom 0 "test error") }] ∧
    (whenAllDemo.1.length = [(0 : Fin 3), 1, 2].length ∧
      ∀ (i : Nat) (f : Fin 3), [(0 : Fin 3), 1, 2][i]? = some f →
        ∃ v e, «do» (mixedCbs f) = some (v, e) ∧
          whenAllDemo.1[i]? = some (Result.mk v e) ∧
          ∀ sched₂ r w₂ rest₂,
            GetResult mixedCbs f whenAllDemo.2.1 sched₂ = some (r, w₂, rest₂) → r = (v, e)) :=
  ⟨by decide, by decide,
    (WhenAll_input_order mixedCbs [0, 1, 2] (RunAll 3) (fun _ => Reachable.init)
      (fun _ => rfl)).1 testWhenAllSched whenAllDemo.1 whenAllDemo.2.1 whenAllDemo.2.2
      (eq_some_getD _ ([], RunAll 3, []) (by decide))⟩

/-- C6 (`WaitAll`).  Take futures made by `Run`, in any state they can reach, with the
caller outside every method.  Whatever the schedule, when `WaitAll(fs...)` returns every
future of `fs` has `completed = true` and `IsCompleted()` returns `true` for it; a struct
that was completed before the call is unchanged, and every completed struct holds the
pair `do` returned for its own computation: `WaitAll` has changed no stored outcome.  When
every computation returns or panics, every schedule can be continued so that `WaitAll`
returns.  For the empty sequence `WaitAll` returns at once, without a step of any
goroutine. -/
theorem WaitAll_all_completed {T P : Type} [Inhabited T] [FmtV P] {K : Nat}
    (cbs : Fin K → Outcome T P) (futures : List (Fin K)) (w : World T K)
    (hw : ∀ j, Reachable (cbs j) (w j)) (hidle : ∀ j, ((w j).consumers 0).pc = .idle) :
    (∀ sched w' rest, WaitAll cbs futures w sched = some (w', rest) →
      (∀ f ∈ futures, (w' f).f.completed = true ∧
        ∀ sched₂ b w₂ rest₂, IsCompleted cbs f w' sched₂ = some (b, w₂, rest₂) → b = true) ∧
      (∀ j, (w j).f.completed = true → (w' j).f = (w j).f) ∧
      (∀ j, (w' j).f.completed = true →
        ∃ v e, «do» (cbs j) = some (v, e) ∧ (w' j).f.result = some v ∧ (w' j).f.err = e)) ∧
    ((∀ f ∈ futures, «do» (cbs f) ≠ none) →
      ∀ sched, ∃ ext w' rest, WaitAll cbs futures w (sched ++ ext) = some (w', rest)) ∧
    (∀ sched, WaitAll cbs [] w sched = some (w, sched)) := by
  have hinv : ∀ j, Inv (cbs j) (w j) := fun j => inv_of_reachable (hw j)
  refine ⟨fun sched w' rest h => ?_, fun hdo sched => ?_, fun sched => rfl⟩
  · obtain ⟨a1, a2, a3, a4⟩ := WaitAll_spec cbs futures w sched hinv hidle w' rest h
    refine ⟨fun f hf => ⟨a3 f hf, fun sched₂ b w₂ rest₂ hb => ?_⟩, a4, fun j hc => ?_⟩
    · exact IsCompleted_spec (a2 f) (a3 f hf) hb
    · obtain ⟨v, e, hdo, hr, he, -⟩ := (a1 j).prod.of_completed hc
      exact ⟨v, e, hdo, hr, he⟩
  · exact WaitAll_extend cbs futures w sched hinv hidle hdo

/-- Witness of C6: three pending futures that complete in the order 1, 0, 2. -/
theorem WaitAll_all_completed_witness :
    (WaitAll mixedCbs [0, 1, 2] (RunAll 3) testWaitAllSched).isSome = true ∧
    ((RunAll 3 : World Nat 3) 0).f.completed = false ∧
    (∀ f ∈ [(0 : Fin 3), 1, 2], (waitAllDemo.1 f).f.completed = true ∧
      ∀ sched₂ b w₂ rest₂,
        IsCompleted mixedCbs f waitAllDemo.1 sched₂ = some (b, w₂, rest₂) → b = true) :=
  ⟨by decide, by decide,
    ((WaitAll_all_completed mixedCbs [0, 1, 2] (RunAll 3) (fun _ => Reachable.init)
      (fun _ => rfl)).1 testWaitAllSched waitAllDemo.1 waitAllDemo.2
      (eq_some_getD _ (RunAll 3, []) (by decide))).1⟩

end Futures
